import Mathlib

/-!
Verification of the wsterm workspace-synchronisation and transport layer.

The Python source is shallowly embedded: dynamic dictionaries (Python
`dict`) become association lists in insertion order, Python strings become
`String` (or lists of byte values where the code works on `bytes`), and the
stateful pieces become explicit state-passing functions.  Machine integers
are modelled as `Nat`/`Int` with explicit bounds where overflow matters.
-/

namespace WSTerm

/-- Dynamic values appearing in the snapshot/diff trees of
`wsterm/utils.py` and `wsterm/workspace.py`: a tree node is a Python dict
(modelled as an association list in insertion order) and a leaf is a string
(an MD5 hex digest or the removal sentinel "-"). -/
inductive Val where
  | str : String → Val
  | map : List (String × Val) → Val
deriving Repr

/-- Structural equality of dynamic values, mirroring Python `==` on the
str/dict fragment in use. -/
def Val.beq : Val → Val → Bool
  | .str a, .str b => a = b
  | .map a, .map b => mbeq a b
  | _, _ => false
where
  mbeq : List (String × Val) → List (String × Val) → Bool
    | [], [] => true
    | (k1, v1) :: r1, (k2, v2) :: r2 => k1 = k2 && Val.beq v1 v2 && mbeq r1 r2
    | _, _ => false

instance : BEq Val := ⟨Val.beq⟩

theorem Val.beq_refl : (v : Val) → Val.beq v v = true
  | .str s => by simp [Val.beq]
  | .map [] => by simp [Val.beq, Val.beq.mbeq]
  | .map ((k, v) :: rest) => by
    have h1 := Val.beq_refl v
    have h2 := Val.beq_refl (.map rest)
    simp only [Val.beq] at h2 ⊢
    simp [Val.beq.mbeq, h1, h2]

mutual

theorem Val.eq_of_beq : {a b : Val} → Val.beq a b = true → a = b
  | .str a, .str b, h => by
    simp only [Val.beq, decide_eq_true_eq] at h; rw [h]
  | .map a, .map b, h => by
    simp only [Val.beq] at h
    have : a = b := Val.eq_of_mbeq h
    rw [this]
  | .str _, .map _, h => by simp [Val.beq] at h
  | .map _, .str _, h => by simp [Val.beq] at h

theorem Val.eq_of_mbeq : {a b : List (String × Val)} → Val.beq.mbeq a b = true → a = b
  | [], [], _ => rfl
  | (k1, v1) :: r1, (k2, v2) :: r2, h => by
    simp only [Val.beq.mbeq, Bool.and_eq_true, decide_eq_true_eq] at h
    have hv : v1 = v2 := Val.eq_of_beq h.1.2
    have hr : r1 = r2 := Val.eq_of_mbeq h.2
    rw [h.1.1, hv, hr]
  | [], (_, _) :: _, h => by simp [Val.beq.mbeq] at h
  | (_, _) :: _, [], h => by simp [Val.beq.mbeq] at h

end

instance : DecidableEq Val := fun a b =>
  if h : Val.beq a b then .isTrue (Val.eq_of_beq h)
  else .isFalse (fun he => h (he ▸ Val.beq_refl a))

/-- Python dict key lookup (`data[key]` / `key in data`) on the
association-list model; returns the first binding. -/
def alookup {α : Type} (k : String) : List (String × α) → Option α
  | [] => none
  | p :: rest => if p.1 = k then some p.2 else alookup k rest

/-- Python truthiness (`if res:`) for the str/dict fragment: the empty
string and the empty dict are falsy. -/
def truthy : Val → Bool
  | .str s => s ≠ ""
  | .map m => !m.isEmpty

/-- Second loop of `utils.diff`: keys present only in `data2` are reported
with the removal sentinel "-". -/
def removedKeys (d1 d2 : List (String × Val)) : List (String × Val) :=
  d2.filterMap fun p => if (alookup p.1 d1).isNone then some (p.1, Val.str "-") else none

/-- First loop of `utils.diff` (`wsterm/utils.py`, `diff`): walk the keys of
`data1`; a key absent from `data2` carries its `data1` payload; a key
present in both recurses when both payloads are dicts (keeping the
sub-diff only when non-empty, Python `if res:`), otherwise carries the
`data1` payload when it differs from the `data2` payload and is truthy. -/
def diffAux : List (String × Val) → List (String × Val) → List (String × Val)
  | [], _ => []
  | (k, v1) :: rest, d2 =>
    match alookup k d2 with
    | none => (k, v1) :: diffAux rest d2
    | some v2 =>
      match v1, v2 with
      | .map m1, .map m2 =>
        let r := diffAux m1 m2 ++ removedKeys m1 m2
        if r.isEmpty then diffAux rest d2 else (k, .map r) :: diffAux rest d2
      | v1, v2 =>
        if v1 ≠ v2 ∧ truthy v1 then (k, v1) :: diffAux rest d2 else diffAux rest d2
termination_by d1 _ => sizeOf d1
decreasing_by
  all_goals simp_wf
  all_goals omega

/-- The embedding of `utils.diff`: both loops in order. -/
def diff (d1 d2 : List (String × Val)) : List (String × Val) :=
  diffAux d1 d2 ++ removedKeys d1 d2

/-- Reference diff from the specification's words (claim C2): every key
present only in local carries its local payload; every key present in both
whose payloads differ carries the local payload, recursing when both
payloads are maps and omitting a sub-tree whose recursive diff is empty;
every key present only in remote carries "-".  This definition follows the
spec, to be compared against `diff`, which follows the source. -/
def refDiffAux : List (String × Val) → List (String × Val) → List (String × Val)
  | [], _ => []
  | (k, v1) :: rest, d2 =>
    match alookup k d2 with
    | none => (k, v1) :: refDiffAux rest d2
    | some v2 =>
      match v1, v2 with
      | .map m1, .map m2 =>
        let r := refDiffAux m1 m2 ++ removedKeys m1 m2
        if r.isEmpty then refDiffAux rest d2 else (k, .map r) :: refDiffAux rest d2
      | v1, v2 =>
        if v1 ≠ v2 then (k, v1) :: refDiffAux rest d2 else refDiffAux rest d2
termination_by d1 _ => sizeOf d1
decreasing_by
  all_goals simp_wf
  all_goals omega

/-- Reference diff of the spec sentence, assembled like `diff`. -/
def refDiff (d1 d2 : List (String × Val)) : List (String × Val) :=
  refDiffAux d1 d2 ++ removedKeys d1 d2

/-- Compatibility of two trees: at every key present in both maps
(recursively), either both payloads are maps, or the local payload is
truthy (non-empty).  Well-formed snapshot trees satisfy this: their shared
payloads are hash strings (32 hex chars) or dict nodes on both sides. -/
def compatible : List (String × Val) → List (String × Val) → Bool
  | [], _ => true
  | (k, v1) :: rest, d2 =>
    (match alookup k d2 with
     | none => true
     | some v2 =>
       match v1, v2 with
       | .map m1, .map m2 => compatible m1 m2
       | _, _ => truthy v1) && compatible rest d2
termination_by d1 _ => sizeOf d1
decreasing_by
  all_goals simp_wf
  all_goals omega

theorem diffAux_eq_refDiffAux (d1 d2 : List (String × Val))
    (h : compatible d1 d2 = true) : diffAux d1 d2 = refDiffAux d1 d2 := by
  induction d1, d2 using diffAux.induct with
  | case1 d2 => simp [diffAux, refDiffAux]
  | case2 k v1 rest d2 hl ih =>
    simp only [compatible, hl, Bool.and_eq_true] at h
    simp only [diffAux, refDiffAux, hl]
    exact congrArg _ (ih h.2)
  | case3 k rest d2 m1 m2 r hr hl ih1 ih2 =>
    simp only [compatible, hl, Bool.and_eq_true] at h
    simp only [diffAux, refDiffAux, hl]
    have hr' : (diffAux m1 m2 ++ removedKeys m1 m2).isEmpty = true := hr
    rw [← ih1 h.1, if_pos hr', if_pos hr']
    exact ih2 h.2
  | case4 k rest d2 m1 m2 r hr hl ih1 ih2 =>
    simp only [compatible, hl, Bool.and_eq_true] at h
    simp only [diffAux, refDiffAux, hl]
    have hr' : ¬(diffAux m1 m2 ++ removedKeys m1 m2).isEmpty = true := hr
    rw [← ih1 h.1, if_neg hr', if_neg hr', ih2 h.2]
  | case5 k rest d2 v1 v2 habs hcond hl ih =>
    simp only [compatible, hl, Bool.and_eq_true] at h
    cases v1 <;> cases v2
    · simp only [diffAux, refDiffAux, hl]
      rw [if_pos hcond, if_pos hcond.1, ih h.2]
    · simp only [diffAux, refDiffAux, hl]
      rw [if_pos hcond, if_pos hcond.1, ih h.2]
    · simp only [diffAux, refDiffAux, hl]
      rw [if_pos hcond, if_pos hcond.1, ih h.2]
    · exact (habs _ _ rfl rfl).elim
  | case6 k rest d2 v1 v2 habs hcond hl ih =>
    simp only [compatible, hl, Bool.and_eq_true] at h
    cases v1 <;> cases v2
    · simp only [diffAux, refDiffAux, hl]
      rw [if_neg hcond, if_neg (fun hne => hcond ⟨hne, h.1⟩), ih h.2]
    · exact absurd ⟨by simp, h.1⟩ hcond
    · exact absurd ⟨by simp, h.1⟩ hcond
    · exact (habs _ _ rfl rfl).elim

/-- C2 counterexample input: local payload is the empty string, remote
payload differs; Python `if res:` drops the key, the reference keeps it. -/
theorem C2_counterexample :
    diff [("a", Val.str "")] [("a", Val.str "x")] = [] ∧
    refDiff [("a", Val.str "")] [("a", Val.str "x")] = [("a", Val.str "")] ∧
    diff [("a", Val.str "")] [("a", Val.str "x")] ≠
      refDiff [("a", Val.str "")] [("a", Val.str "x")] := by
  refine ⟨?_, ?_, ?_⟩ <;>
    simp [diff, refDiff, diffAux, refDiffAux, removedKeys, alookup, truthy]

/-- C2 (amended): `utils.diff` agrees with the reference definition
whenever, at every key present in both maps (recursively), either both
payloads are maps or the local payload is a non-empty string or non-empty
map; without that proviso the code additionally omits a key whose
differing local payload is falsy (empty string or empty map). -/
theorem C2_diff_eq_refDiff (d1 d2 : List (String × Val))
    (h : compatible d1 d2 = true) : diff d1 d2 = refDiff d1 d2 := by
  rw [diff, refDiff, diffAux_eq_refDiffAux d1 d2 h]

/-- C2 witness: a concrete compatible pair, with the diff evaluated. -/
theorem C2_witness :
    compatible [("a", Val.str "h1")] [("a", Val.str "h2"), ("b", Val.str "h3")] = true ∧
    diff [("a", Val.str "h1")] [("a", Val.str "h2"), ("b", Val.str "h3")] =
      refDiff [("a", Val.str "h1")] [("a", Val.str "h2"), ("b", Val.str "h3")] :=
  ⟨by simp [compatible, alookup, truthy],
   C2_diff_eq_refDiff _ _ (by simp [compatible, alookup, truthy])⟩

/-! Request id allocation (claim C6).

`WSTerminalConnection.send_request` (wsterm/client.py) and
`WSTerminalServerHandler.send_request` (wsterm/server.py) both run
`self._sequence += 1` and then use `self._sequence` as the packet id.
The client constructs the connection with `self._sequence = 0`, the
server handler with `self._sequence = 0x10000`. -/

/-- One `send_request` call: increment the counter, the packet id is the
incremented counter.  Returns (new counter state, issued id). -/
def sendRequestSeq (seq : Nat) : Nat × Nat := (seq + 1, seq + 1)

/-- Initial `_sequence` of `WSTerminalConnection.__init__`. -/
def clientInitialSeq : Nat := 0

/-- Initial `_sequence` of `WSTerminalServerHandler.__init__`. -/
def serverInitialSeq : Nat := 0x10000

/-- Counter state after `n` calls to `send_request` starting from `init`. -/
def seqAfter (init : Nat) : Nat → Nat
  | 0 => init
  | n + 1 => (sendRequestSeq (seqAfter init n)).1

/-- Packet id issued by the `i`-th call (0-based) to `send_request` on a
connection whose counter starts at `init`. -/
def idAt (init i : Nat) : Nat := (sendRequestSeq (seqAfter init i)).2

theorem seqAfter_eq (init : Nat) : ∀ n, seqAfter init n = init + n
  | 0 => rfl
  | n + 1 => by rw [seqAfter, sendRequestSeq, seqAfter_eq init n]; omega

theorem idAt_eq (init i : Nat) : idAt init i = init + i + 1 := by
  rw [idAt, sendRequestSeq, seqAfter_eq]

/-- C6 counterexample input: the id of the client's 65537th request equals
the id of the server's first request, so the reachable id-spaces are not
disjoint. -/
theorem C6_counterexample :
    idAt clientInitialSeq 0x10000 = idAt serverInitialSeq 0 ∧
    idAt serverInitialSeq 0 = 0x10001 := by
  rw [idAt_eq, idAt_eq]
  exact ⟨rfl, rfl⟩

/-- C6 (amended): on each connection request ids strictly increase with the
call index; the client's counter is initialised to 0 and the server's to
0x10000 (so the first issued ids are 1 and 0x10001); and a client-issued
id never equals a server-issued id as long as the client has issued at
most 0x10000 requests. -/
theorem C6_ids_monotone_and_disjoint :
    (∀ init i j, i < j → idAt init i < idAt init j) ∧
    clientInitialSeq = 0 ∧ serverInitialSeq = 0x10000 ∧
    (∀ i j, i < 0x10000 → idAt clientInitialSeq i ≠ idAt serverInitialSeq j) := by
  refine ⟨fun init i j hij => ?_, rfl, rfl, fun i j hi => ?_⟩
  · rw [idAt_eq, idAt_eq]; omega
  · rw [idAt_eq, idAt_eq, clientInitialSeq, serverInitialSeq]; omega

/-- C6 witness: concrete instances of monotonicity and disjointness. -/
theorem C6_witness :
    idAt clientInitialSeq 0 < idAt clientInitialSeq 5 ∧
    idAt clientInitialSeq 7 ≠ idAt serverInitialSeq 7 :=
  ⟨C6_ids_monotone_and_disjoint.1 clientInitialSeq 0 5 (by omega),
   C6_ids_monotone_and_disjoint.2.2.2 7 7 (by omega)⟩

/-! Server-side request dispatch (claims C5 and C7).

`WSTerminalServerHandler.handle_request` (wsterm/server.py, lines
126-248) is a plain if/elif chain on `request["command"]`; the
workspace commands are additionally guarded by `self._workspace and`.
The chain has no final `else`: a request matching no branch falls off
the end of the method (only the debug log at the top ran) and no
response is sent.  `on_message` wraps `handle_request` in
try/except Exception and answers `send_response(request, -1, str(ex))`
when the handler raised. -/

/-- Attribute-name/value pairs defined on `EnumCommand` in
wsterm/proto.py lines 16-30 (there is no SET_PERM attribute). -/
def enumCommandAttrs : List (String × String) :=
  [("SYNC_WORKSPACE", "sync-workspace"),
   ("LIST_DIR", "list-dir"),
   ("CREATE_DIR", "create-dir"),
   ("REMOVE_DIR", "remove-dir"),
   ("WRITE_FILE", "write-file"),
   ("REMOVE_FILE", "remove-file"),
   ("MOVE_ITEM", "move-item"),
   ("CREATE_SHELL", "create-shell"),
   ("WRITE_STDIN", "write-stdin"),
   ("WRITE_STDOUT", "write-stdout"),
   ("WRITE_STDERR", "write-stderr"),
   ("RESIZE_SHELL", "resize-shell"),
   ("EXIT_SHELL", "exit-shell")]

/-- The if/elif chain of `handle_request`: which branch a request with
the given command string reaches, given whether `self._workspace` is
set.  `none` means the chain falls through: the method returns with no
branch executed and no response sent. -/
def dispatchBranch (hasWorkspace : Bool) (cmd : String) : Option String :=
  if cmd = "sync-workspace" then some "sync-workspace"
  else if hasWorkspace ∧ cmd = "write-file" then some "write-file"
  else if hasWorkspace ∧ cmd = "remove-file" then some "remove-file"
  else if hasWorkspace ∧ cmd = "create-dir" then some "create-dir"
  else if hasWorkspace ∧ cmd = "remove-dir" then some "remove-dir"
  else if hasWorkspace ∧ cmd = "move-item" then some "move-item"
  else if cmd = "create-shell" then some "create-shell"
  else if cmd = "write-stdin" then some "write-stdin"
  else if cmd = "resize-shell" then some "resize-shell"
  else none

/-- Observable steps of the server handling one inbound request. -/
inductive SrvEff where
  | logDebug
  | branchBody (name : String)
  | logException
  | response (code : Int) (message : String)
deriving DecidableEq, Repr

/-- `on_message` around `handle_request`: the debug log always runs; a
matched branch runs its body; if the body raises `e`, the except clause
logs the stack and sends `send_response(request, -1, str(e))`.  An
unmatched command runs no branch, raises nothing, and sends nothing.
`branchRaises` abstracts whether the matched branch body raises and
with which message. -/
def onMessageEffs (hasWorkspace : Bool) (cmd : String)
    (branchRaises : String → Option String) : List SrvEff :=
  match dispatchBranch hasWorkspace cmd with
  | some b =>
    match branchRaises b with
    | some e => [.logDebug, .branchBody b, .logException, .response (-1) e]
    | none => [.logDebug, .branchBody b]
  | none => [.logDebug]

/-- Did the server send any failure response (code = -1)? -/
def sendsFailure (effs : List SrvEff) : Bool :=
  effs.any fun e =>
    match e with
    | .response c _ => c = -1
    | _ => false

/-- C5 counterexample input: the unknown command "no-such-command" with a
workspace bound and no exception raised — the server sends no response
at all (the elif chain has no else), contradicting the claimed
`code=-1` failure reply. -/
theorem C5_counterexample :
    dispatchBranch true "no-such-command" = none ∧
    onMessageEffs true "no-such-command" (fun _ => none) = [.logDebug] ∧
    sendsFailure (onMessageEffs true "no-such-command" (fun _ => none)) = false := by
  refine ⟨by decide, by decide, by decide⟩

/-- C5 (amended): a REQUEST whose command matches no branch of
`handle_request` is logged (debug) and silently dropped: no branch runs
and no response is sent.  A request whose matched handler branch raises
an exception is answered with a failure response `code = -1` whose
message is the exception text. -/
theorem C5_unknown_ignored_exception_minus_one :
    (∀ w cmd f, dispatchBranch w cmd = none →
      onMessageEffs w cmd f = [.logDebug] ∧
      sendsFailure (onMessageEffs w cmd f) = false) ∧
    (∀ w cmd b f e, dispatchBranch w cmd = some b → f b = some e →
      onMessageEffs w cmd f = [.logDebug, .branchBody b, .logException, .response (-1) e]) := by
  constructor
  · intro w cmd f h
    rw [onMessageEffs, h]
    exact ⟨rfl, rfl⟩
  · intro w cmd b f e hb hf
    rw [onMessageEffs, hb]
    simp only [hf]

/-- C5 witness: the unknown-command case and a write-file branch that
raises an OSError. -/
theorem C5_witness :
    onMessageEffs true "list-dir" (fun _ => none) = [.logDebug] ∧
    onMessageEffs true "write-file"
        (fun _ => some "No space left on device") =
      [.logDebug, .branchBody "write-file", .logException,
       .response (-1) "No space left on device"] :=
  ⟨(C5_unknown_ignored_exception_minus_one.1 true "list-dir" (fun _ => none) (by decide)).1,
   C5_unknown_ignored_exception_minus_one.2 true "write-file" "write-file"
     (fun _ => some "No space left on device") "No space left on device" (by decide) rfl⟩

/-- C7: the spec's `set-perm` command is missing from the code paths that
would have to carry it: `EnumCommand` defines no SET_PERM attribute (so
`proto.EnumCommand.SET_PERM` in `WSTerminalClient.set_perm` raises
AttributeError), no defined command value is "set-perm", and
`handle_request` has no branch for "set-perm" (with or without a bound
workspace), so the server would never chmod anything. -/
theorem C7_set_perm_missing :
    alookup "SET_PERM" enumCommandAttrs = none ∧
    (∀ p ∈ enumCommandAttrs, p.2 ≠ "set-perm") ∧
    (∀ w : Bool, dispatchBranch w "set-perm" = none) := by
  refine ⟨by decide, by decide, by decide⟩

/-! Linux inotify consumer (claim C9).

`INotifyWatcher._read_event` (wsterm/aiowatch/inotify.py, lines 202-213)
parses raw records as `wd, mask, _, length = struct.unpack_from("iIII", ...)`
— the third field, the rename cookie, is discarded — and enqueues
`(target, mask)` pairs.  `read_event` (lines 160-186) loops over the
queue: `IN_MOVED_FROM` only latches `move_from = target` and continues;
`IN_MOVED_TO` immediately returns `ITEM_MOVED(move_from, target)`;
`move_from` resets to None at each `read_event` call. -/

/-- Raw inotify record after the `struct.unpack_from` parse: target path,
rename cookie and event mask.  (`_read_event` reads the cookie into the
throw-away variable `_`; it never reaches the queue.) -/
structure IRec where
  target : String
  cookie : Nat
  mask : Nat
deriving DecidableEq, Repr

/-- Relevant inotify mask bits (InotifyConstants). -/
def inMODIFY : Nat := 0x2
def inMOVED_FROM : Nat := 0x40
def inMOVED_TO : Nat := 0x80
def inCREATE : Nat := 0x100
def inDELETE : Nat := 0x200
def inMOVE : Nat := 0xC0
def inISDIR : Nat := 0x40000000

/-- Normalized watcher events (aiowatch.WatchEvent kinds). -/
inductive WEvent where
  | directoryCreated (p : String)
  | fileCreated (p : String)
  | fileModified (p : String)
  | directoryRemoved (p : String)
  | fileRemoved (p : String)
  | itemMoved (src : Option String) (dst : String)
deriving DecidableEq, Repr

/-- One call to `INotifyWatcher.read_event`, consuming queued
`(target, mask)` records until a normalized event is produced; `moveFrom`
is the local `move_from` variable (None at call entry).  `none` models a
call that blocks forever on an exhausted queue. -/
def readEvent (moveFrom : Option String) : List IRec → Option (WEvent × List IRec)
  | [] => none
  | r :: rest =>
    if r.mask &&& inCREATE ≠ 0 then
      some (if r.mask &&& inISDIR ≠ 0 then .directoryCreated r.target
            else .fileCreated r.target, rest)
    else if r.mask &&& inMODIFY ≠ 0 then
      if r.mask &&& inISDIR ≠ 0 then readEvent moveFrom rest
      else some (.fileModified r.target, rest)
    else if r.mask &&& inDELETE ≠ 0 then
      some (if r.mask &&& inISDIR ≠ 0 then .directoryRemoved r.target
            else .fileRemoved r.target, rest)
    else if r.mask &&& inMOVE ≠ 0 ∧ r.mask &&& inMOVED_FROM ≠ 0 then
      readEvent (some r.target) rest
    else if r.mask &&& inMOVE ≠ 0 ∧ r.mask &&& inMOVED_TO ≠ 0 then
      some (.itemMoved moveFrom r.target, rest)
    else
      readEvent moveFrom rest

theorem readEvent_shrinks (mf : Option String) (q : List IRec) (e : WEvent)
    (rest : List IRec) (h : readEvent mf q = some (e, rest)) :
    rest.length < q.length := by
  induction q generalizing mf with
  | nil => exact absurd h (by rw [readEvent]; exact Option.noConfusion)
  | cons r q ih =>
    rw [readEvent] at h
    split_ifs at h
    all_goals first
      | exact Nat.lt_trans (ih _ h) (by simp)
      | · simp only [Option.some.injEq, Prod.mk.injEq] at h
          rw [← h.2]
          simp

/-- Drain the queue through repeated `read_event` calls (each call starts
with `move_from = None`), collecting the events delivered to the
workspace adapter. -/
def drainEvents (q : List IRec) : List WEvent :=
  match h : readEvent none q with
  | some (e, rest) => e :: drainEvents rest
  | none => []
termination_by q.length
decreasing_by exact readEvent_shrinks none q _ _ h

/-- An `IN_MOVED_TO` record never appears in the queue `q`. -/
def noMovedTo (q : List IRec) : Bool :=
  q.all fun r => r.mask &&& inMOVED_TO = 0

theorem readEvent_moveFrom_irrelevant (q : List IRec) (mf : Option String)
    (h : noMovedTo q = true) : readEvent mf q = readEvent none q := by
  induction q generalizing mf with
  | nil => rfl
  | cons r rest ih =>
    have hr : r.mask &&& inMOVED_TO = 0 := by
      have := (List.all_eq_true.1 h) r (List.mem_cons_self r rest)
      exact of_decide_eq_true this
    have hrest : noMovedTo rest = true := by
      apply List.all_eq_true.2
      intro x hx
      exact (List.all_eq_true.1 h) x (List.mem_cons_of_mem r hx)
    have hto : ¬(r.mask &&& inMOVE ≠ 0 ∧ r.mask &&& inMOVED_TO ≠ 0) := by
      intro hc; exact hc.2 hr
    rw [readEvent, readEvent, if_neg hto, if_neg hto]
    split_ifs <;> first | rfl | exact ih _ hrest

theorem drainEvents_unfold (q : List IRec) : drainEvents q =
    match readEvent none q with
    | some (e, rest) => e :: drainEvents rest
    | none => [] := by
  rw [drainEvents.eq_def]
  cases hq : readEvent none q with
  | none => rfl
  | some p => obtain ⟨e, rest⟩ := p; rfl

/-- Consuming a pure `IN_MOVED_FROM` record only latches `move_from`. -/
theorem readEvent_from_step (mf : Option String) (f : String) (c : Nat)
    (rest : List IRec) :
    readEvent mf (⟨f, c, inMOVED_FROM⟩ :: rest) = readEvent (some f) rest := by
  rw [readEvent]
  simp only [inMOVED_FROM, inMOVE, inCREATE, inMODIFY, inDELETE, inISDIR, inMOVED_TO]
  simp [show (64:Nat) &&& 256 = 0 from by decide, show (64:Nat) &&& 2 = 0 from by decide,
    show (64:Nat) &&& 512 = 0 from by decide, show (64:Nat) &&& 192 = 64 from by decide,
    show (64:Nat) &&& 64 = 64 from by decide]

/-- Consuming a pure `IN_MOVED_TO` record returns ITEM_MOVED with the
currently latched `move_from`, whatever the cookies were. -/
theorem readEvent_to_step (mf : Option String) (t : String) (c : Nat)
    (rest : List IRec) :
    readEvent mf (⟨t, c, inMOVED_TO⟩ :: rest) = some (.itemMoved mf t, rest) := by
  rw [readEvent]
  simp only [inMOVED_FROM, inMOVE, inCREATE, inMODIFY, inDELETE, inISDIR, inMOVED_TO]
  simp [show (128:Nat) &&& 256 = 0 from by decide, show (128:Nat) &&& 2 = 0 from by decide,
    show (128:Nat) &&& 512 = 0 from by decide, show (128:Nat) &&& 192 = 128 from by decide,
    show (128:Nat) &&& 128 = 128 from by decide, show (128:Nat) &&& 64 = 0 from by decide]

/-- C9 counterexample input: a lone `IN_MOVED_FROM` for "a" (cookie 1)
followed by an `IN_MODIFY` for file "b".  Draining yields only
FILE_MODIFIED("b"): the unmatched move-from produces no
FILE_REMOVED/DIRECTORY_REMOVED for "a" at all, contradicting the claim. -/
theorem C9_counterexample :
    drainEvents [⟨"a", 1, inMOVED_FROM⟩, ⟨"b", 0, inMODIFY⟩] =
      [.fileModified "b"] ∧
    (WEvent.fileRemoved "a") ∉
      drainEvents [⟨"a", 1, inMOVED_FROM⟩, ⟨"b", 0, inMODIFY⟩] ∧
    (WEvent.directoryRemoved "a") ∉
      drainEvents [⟨"a", 1, inMOVED_FROM⟩, ⟨"b", 0, inMODIFY⟩] := by
  have h : drainEvents [⟨"a", 1, inMOVED_FROM⟩, ⟨"b", 0, inMODIFY⟩] =
      [.fileModified "b"] := by
    rw [drainEvents_unfold]
    rw [show readEvent none [⟨"a", 1, inMOVED_FROM⟩, ⟨"b", 0, inMODIFY⟩] =
      some (.fileModified "b", []) from by decide]
    show WEvent.fileModified "b" :: drainEvents [] = _
    rw [drainEvents_unfold]
    rfl
  refine ⟨h, ?_, ?_⟩ <;> rw [h] <;> simp

/-- C9 (amended): the consumer pairs an `IN_MOVED_TO` with the most
recently latched `IN_MOVED_FROM` of the same `read_event` call and
ignores the cookie entirely (it is discarded at parse time): a move-from
record directly followed by a move-to record yields
ITEM_MOVED(from, to) for any cookie values.  An `IN_MOVED_FROM` with no
subsequent `IN_MOVED_TO` in the queue produces no event at all — in
particular no FILE_REMOVED/DIRECTORY_REMOVED. -/
theorem C9_move_pairing :
    (∀ (f t : String) (c1 c2 : Nat) (rest : List IRec) (mf : Option String),
      readEvent mf (⟨f, c1, inMOVED_FROM⟩ :: ⟨t, c2, inMOVED_TO⟩ :: rest) =
        some (.itemMoved (some f) t, rest)) ∧
    (∀ (f : String) (c : Nat) (rest : List IRec), noMovedTo rest = true →
      drainEvents (⟨f, c, inMOVED_FROM⟩ :: rest) = drainEvents rest) := by
  constructor
  · intro f t c1 c2 rest mf
    rw [readEvent_from_step, readEvent_to_step]
  · intro f c rest hrest
    have hstep : readEvent none (⟨f, c, inMOVED_FROM⟩ :: rest) = readEvent none rest := by
      rw [readEvent_from_step]
      exact readEvent_moveFrom_irrelevant rest (some f) hrest
    rw [drainEvents_unfold, hstep, ← drainEvents_unfold]

/-- C9 witness: a matched pair with different cookies still yields a
single ITEM_MOVED, and a lone move-from before a delete of another path
contributes nothing. -/
theorem C9_witness :
    readEvent none [⟨"x", 7, inMOVED_FROM⟩, ⟨"y", 9, inMOVED_TO⟩] =
      some (.itemMoved (some "x") "y", []) ∧
    drainEvents [⟨"x", 7, inMOVED_FROM⟩, ⟨"z", 0, inDELETE⟩] =
      drainEvents [⟨"z", 0, inDELETE⟩] :=
  ⟨C9_move_pairing.1 "x" "y" 7 9 [] none,
   C9_move_pairing.2 "x" 7 [⟨"z", 0, inDELETE⟩] (by decide)⟩

/-! Shell-session reaper (claims C8 and C10).

`ShellSessionManager.check_session_task` (wsterm/server.py, lines 21-30)
runs one scan per second (`await asyncio.sleep(1)`), and inside a scan
evicts AT MOST ONE session: it iterates the registry, and on the first
session whose detach timestamp is non-zero and older than its timeout it
terminates the shell, pops the entry and `break`s out of the scan.
Time is modelled as ℚ; scan `i` happens at time `start + i`, idealising
`asyncio.sleep(1)` as exact. -/

/-- Registry entry: session id, timeout (seconds) and last detach
timestamp (`ts = 0` means currently attached, never reaped). -/
structure Sess where
  sid : String
  timeout : ℚ
  ts : ℚ
deriving DecidableEq, Repr

/-- Python: `if timestamp and time.time() >= timestamp + timeout`. -/
def sessExpired (τ : ℚ) (s : Sess) : Prop := s.ts ≠ 0 ∧ s.ts + s.timeout ≤ τ

instance (τ : ℚ) (s : Sess) : Decidable (sessExpired τ s) := by
  unfold sessExpired; infer_instance

/-- One scan of `check_session_task` at time `τ`: pop the first expired
session and break; keep everything else. -/
def evictFirst (τ : ℚ) : List Sess → List Sess
  | [] => []
  | s :: rest => if sessExpired τ s then rest else s :: evictFirst τ rest

/-- Registry after `n` scans, scan `i` occurring at time `start + i`. -/
def reaperRun (start : ℚ) (regs : List Sess) : Nat → List Sess
  | 0 => regs
  | n + 1 => evictFirst (start + n) (reaperRun start regs n)

theorem evictFirst_dropped (τ : ℚ) (l : List Sess) (s : Sess)
    (hmem : s ∈ l) (hgone : s ∉ evictFirst τ l) : sessExpired τ s := by
  induction l with
  | nil => cases hmem
  | cons x rest ih =>
    rw [evictFirst] at hgone
    by_cases hx : sessExpired τ x
    · rw [if_pos hx] at hgone
      rcases List.mem_cons.1 hmem with rfl | hr
      · exact hx
      · exact absurd hr hgone
    · rw [if_neg hx] at hgone
      rcases List.mem_cons.1 hmem with rfl | hr
      · exact absurd (List.mem_cons_self _ _) hgone
      · exact ih hr fun hc => hgone (List.mem_cons_of_mem _ hc)

theorem reaperRun_singleton_keep (start : ℚ) (s : Sess) :
    ∀ m : Nat, (∀ k : Nat, k < m → ¬ sessExpired (start + k) s) →
      reaperRun start [s] m = [s] := by
  intro m hk
  induction m with
  | zero => rfl
  | succ m ih =>
    rw [reaperRun, ih (fun k hkm => hk k (Nat.lt_succ_of_lt hkm))]
    rw [evictFirst, if_neg (hk m (Nat.lt_succ_self m))]
    rfl

/-- C8 counterexample input: three sessions "A","B","C", all with
timeout 2 and detach timestamp 1 (so `t0 + T + 1 = 4`), reaper started
at time 0.  One eviction per scan: "C" is still registered after the
scan at time 4 and is only evicted by the scan at time 5 > 4, violating
the claimed simultaneous upper bound `t0 + T + 1`. -/
theorem C8_counterexample :
    reaperRun 0 [⟨"A", 2, 1⟩, ⟨"B", 2, 1⟩, ⟨"C", 2, 1⟩] 5 = [⟨"C", 2, 1⟩] ∧
    reaperRun 0 [⟨"A", 2, 1⟩, ⟨"B", 2, 1⟩, ⟨"C", 2, 1⟩] 6 = [] ∧
    ((1 : ℚ) + 2 + 1 < 5) := by
  refine ⟨?_, ?_, by norm_num⟩ <;>
    norm_num [reaperRun, evictFirst, sessExpired]

/-- C8 (amended): a session is never evicted before `t0 + T`; a session
that is alone in the registry, detached at `t0 > 0` with timeout
`T ≥ 0` and never reattached, is evicted by a scan at a time in
`[t0 + T, t0 + T + 1]`; but because each scan evicts at most one session
(the loop breaks after the first pop), the bound does not hold for
several simultaneously expired sessions — with k of them the last can
wait up to k extra scans. -/
theorem C8_reaper_bounds :
    (∀ (start : ℚ) (regs : List Sess) (n : Nat) (s : Sess),
      s ∈ reaperRun start regs n → s ∉ reaperRun start regs (n + 1) →
        s.ts ≠ 0 ∧ s.ts + s.timeout ≤ start + n) ∧
    (∀ (start t0 T : ℚ) (sid : String), 0 < t0 → 0 ≤ T → start ≤ t0 + T →
      ∃ n : Nat, reaperRun start [⟨sid, T, t0⟩] n = [⟨sid, T, t0⟩] ∧
        reaperRun start [⟨sid, T, t0⟩] (n + 1) = [] ∧
        t0 + T ≤ start + n ∧ start + n ≤ t0 + T + 1) := by
  constructor
  · intro start regs n s hmem hgone
    exact evictFirst_dropped (start + n) (reaperRun start regs n) s hmem hgone
  · intro start t0 T sid ht0 hT hstart
    have hkeep : ∀ k : Nat, k < ⌈t0 + T - start⌉₊ →
        ¬ sessExpired (start + k) ⟨sid, T, t0⟩ := by
      intro k hklt hex
      have hk : (k : ℚ) < t0 + T - start := Nat.lt_ceil.1 hklt
      have hle : t0 + T ≤ start + k := hex.2
      linarith
    refine ⟨⌈t0 + T - start⌉₊, reaperRun_singleton_keep start _ _ hkeep, ?_, ?_, ?_⟩
    · rw [reaperRun, reaperRun_singleton_keep start _ _ hkeep]
      have hpos : sessExpired (start + ⌈t0 + T - start⌉₊) ⟨sid, T, t0⟩ := by
        refine ⟨ne_of_gt ht0, ?_⟩
        have := Nat.le_ceil (t0 + T - start)
        show t0 + T ≤ start + ⌈t0 + T - start⌉₊
        linarith
      rw [evictFirst, if_pos hpos]
    · have := Nat.le_ceil (t0 + T - start)
      linarith
    · have h0 : (0 : ℚ) ≤ t0 + T - start := by linarith
      have := Nat.ceil_lt_add_one h0
      linarith

/-- C8 witness: a single session detached at time 1 with timeout 2 and a
reaper started at time 0 is evicted by the scan at time 3 ∈ [3, 4]; and
the session evicted in the three-session run above was not evicted early. -/
theorem C8_witness :
    (∃ n : Nat, reaperRun 0 [⟨"s", 2, 1⟩] n = [⟨"s", 2, 1⟩] ∧
      reaperRun 0 [⟨"s", 2, 1⟩] (n + 1) = [] ∧
      (1 : ℚ) + 2 ≤ 0 + n ∧ (0 : ℚ) + n ≤ 1 + 2 + 1) ∧
    ((Sess.mk "A" 2 1).ts ≠ 0 ∧
      (Sess.mk "A" 2 1).ts + (Sess.mk "A" 2 1).timeout ≤ 0 + 3) :=
  ⟨C8_reaper_bounds.2 0 1 2 "s" (by norm_num) (by norm_num) (by norm_num),
   C8_reaper_bounds.1 0 [⟨"A", 2, 1⟩, ⟨"B", 2, 1⟩, ⟨"C", 2, 1⟩] 3 ⟨"A", 2, 1⟩
     (by norm_num [reaperRun, evictFirst, sessExpired])
     (by norm_num [reaperRun, evictFirst, sessExpired]; decide)⟩

/-! Session registry vs connection close (claim C10).

`ShellSessionManager.update_session_time` (wsterm/server.py, 43-46) does
`session = self._sessions.get(session_id); assert session != None`.
`WSTerminalServerHandler.on_connection_close` (292-301) calls it with
the handler's `_session_id` whenever the handler still holds a shell.
Nothing marks a session as exclusively attached: `CREATE_SHELL` with a
`session` field (175-204) hands the same registry entry to any number of
handlers, and a later close by one of them restarts the detach clock
while another is still attached — after which the reaper can evict the
entry and the remaining handler's close hits the assert. -/

/-- Per-connection handler fields `_session_id` and `_shell`. -/
structure Handler where
  sessionId : Option String
  hasShell : Bool
deriving DecidableEq, Repr

/-- Process-wide world: the singleton registry plus the handlers. -/
structure SrvWorld where
  sessions : List Sess
  handlers : List Handler
deriving DecidableEq, Repr

/-- `self._sessions.get(session_id)` (first binding by id). -/
def getSession (sid : String) : List Sess → Option Sess
  | [] => none
  | s :: rest => if s.sid = sid then some s else getSession sid rest

/-- `session[2] = timestamp` on the entry found for `sid`. -/
def setSessionTs (sid : String) (τ : ℚ) : List Sess → List Sess
  | [] => []
  | s :: rest =>
    if s.sid = sid then ⟨s.sid, s.timeout, τ⟩ :: rest
    else s :: setSessionTs sid τ rest

/-- Events of the session subsystem. -/
inductive SrvAct where
  | createShellSession (i : Nat) (sid : String) (timeout : ℚ)
  | reattachShell (i : Nat) (sid : String)
  | closeConnection (i : Nat) (τ : ℚ)
  | reaperScan (τ : ℚ)

inductive StepResult where
  | ok (w : SrvWorld)
  | assertionError
deriving DecidableEq, Repr

/-- One event of the session subsystem (`none` = the event is not
enabled in this world).
createShellSession: CREATE_SHELL with a `timeout` and no `session`
field — spawn, `create_session` appends `[timeout, shell, 0]` under a
fresh uuid and the handler attaches.
reattachShell: CREATE_SHELL with a `session` field — `get_session`
found, `update_session_time(sid, 0)`, handler attaches (no exclusivity
check).  An unknown id only draws a code=-1 reply (no state change).
closeConnection: `on_connection_close` — with a shell and no session id
the shell exits; with a session id, `update_session_time(sid, now)`,
which asserts the id is still registered; `_shell` is cleared.
reaperScan: one `check_session_task` iteration at time `τ`. -/
def step (w : SrvWorld) : SrvAct → Option StepResult
  | .createShellSession i sid timeout =>
    match w.handlers[i]? with
    | some h =>
      if h.hasShell then none
      else if (getSession sid w.sessions).isSome then none
      else some (.ok ⟨w.sessions ++ [⟨sid, timeout, 0⟩],
                      w.handlers.set i ⟨some sid, true⟩⟩)
    | none => none
  | .reattachShell i sid =>
    match w.handlers[i]? with
    | some h =>
      if h.hasShell then none
      else
        match getSession sid w.sessions with
        | some _ => some (.ok ⟨setSessionTs sid 0 w.sessions,
                               w.handlers.set i ⟨some sid, true⟩⟩)
        | none => none
    | none => none
  | .closeConnection i τ =>
    match w.handlers[i]? with
    | some h =>
      if h.hasShell then
        match h.sessionId with
        | none => some (.ok ⟨w.sessions, w.handlers.set i ⟨none, false⟩⟩)
        | some sid =>
          match getSession sid w.sessions with
          | some _ => some (.ok ⟨setSessionTs sid τ w.sessions,
                                 w.handlers.set i ⟨some sid, false⟩⟩)
          | none => some .assertionError
      else some (.ok w)
    | none => none
  | .reaperScan τ => some (.ok ⟨evictFirst τ w.sessions, w.handlers⟩)

/-- Server start: empty registry, `n` fresh connection handlers. -/
def initialWorld (n : Nat) : SrvWorld := ⟨[], List.replicate n ⟨none, false⟩⟩

/-- Worlds reachable from a server start through enabled events. -/
inductive Reachable : SrvWorld → Prop where
  | init (n : Nat) : Reachable (initialWorld n)
  | next {w w' : SrvWorld} (a : SrvAct) :
      Reachable w → step w a = some (.ok w') → Reachable w'

/-- C10: a reachable world in which a transport closes while holding a
session id the reaper has already evicted, making `on_connection_close`
hit the failing `assert session != None` in `update_session_time`.
Trace: handler 0 creates session "S" (timeout 60) and detaches at t=1;
handlers 1 and 2 both reattach "S" (nothing prevents the double attach);
handler 1 detaches at t=2, restarting the detach clock while handler 2
is still attached; the reaper scan at t=100 evicts "S"; handler 2's
close at t=101 then reaches the assertion instead of completing. -/
theorem C10_assertion_reachable :
    ∃ (w : SrvWorld) (i : Nat) (τ : ℚ),
      Reachable w ∧ step w (.closeConnection i τ) = some .assertionError := by
  refine ⟨⟨[], [⟨some "S", false⟩, ⟨some "S", false⟩, ⟨some "S", true⟩]⟩, 2, 101,
    ?_, ?_⟩
  · have s1 : step (initialWorld 3) (.createShellSession 0 "S" 60) =
        some (.ok ⟨[⟨"S", 60, 0⟩], [⟨some "S", true⟩, ⟨none, false⟩, ⟨none, false⟩]⟩) := by
      norm_num [step, initialWorld, getSession, List.replicate, List.set]
    have s2 : step ⟨[⟨"S", 60, 0⟩], [⟨some "S", true⟩, ⟨none, false⟩, ⟨none, false⟩]⟩
        (.closeConnection 0 1) =
        some (.ok ⟨[⟨"S", 60, 1⟩], [⟨some "S", false⟩, ⟨none, false⟩, ⟨none, false⟩]⟩) := by
      norm_num [step, getSession, setSessionTs]
    have s3 : step ⟨[⟨"S", 60, 1⟩], [⟨some "S", false⟩, ⟨none, false⟩, ⟨none, false⟩]⟩
        (.reattachShell 1 "S") =
        some (.ok ⟨[⟨"S", 60, 0⟩], [⟨some "S", false⟩, ⟨some "S", true⟩, ⟨none, false⟩]⟩) := by
      norm_num [step, getSession, setSessionTs]
    have s4 : step ⟨[⟨"S", 60, 0⟩], [⟨some "S", false⟩, ⟨some "S", true⟩, ⟨none, false⟩]⟩
        (.reattachShell 2 "S") =
        some (.ok ⟨[⟨"S", 60, 0⟩], [⟨some "S", false⟩, ⟨some "S", true⟩, ⟨some "S", true⟩]⟩) := by
      norm_num [step, getSession, setSessionTs]
    have s5 : step ⟨[⟨"S", 60, 0⟩], [⟨some "S", false⟩, ⟨some "S", true⟩, ⟨some "S", true⟩]⟩
        (.closeConnection 1 2) =
        some (.ok ⟨[⟨"S", 60, 2⟩], [⟨some "S", false⟩, ⟨some "S", false⟩, ⟨some "S", true⟩]⟩) := by
      norm_num [step, getSession, setSessionTs]
    have s6 : step ⟨[⟨"S", 60, 2⟩], [⟨some "S", false⟩, ⟨some "S", false⟩, ⟨some "S", true⟩]⟩
        (.reaperScan 100) =
        some (.ok ⟨[], [⟨some "S", false⟩, ⟨some "S", false⟩, ⟨some "S", true⟩]⟩) := by
      norm_num [step, evictFirst, sessExpired]
    exact .next _ (.next _ (.next _ (.next _ (.next _ (.next _ (.init 3) s1) s2) s3) s4) s5) s6
  · norm_num [step, getSession]

/-! Packet codec (claims C3 and C4).

`TransportPacket.serialize` (wsterm/proto.py, 51-53) is
`struct.pack("!I", len(buffer)) + buffer` with `buffer = msgpack.dumps(m)`;
`TransportPacket.deserialize` (55-64) returns `(None, buffer)` when fewer
than 4 or fewer than `4 + length` bytes are buffered, else
`msgpack.loads(buffer[4:4+size])` and the residual bytes.
Bytes are modelled as `Nat` values (< 256 by construction); the
MessagePack subset in use (nil, bool, int, str as UTF-8 bytes, bin,
array, map) is embedded with the canonical smallest-form encodings that
msgpack-python produces. -/

/-- Big-endian base-256 digits of `n`, `w` bytes wide
(`struct.pack("!I", n)` is `beBytes 4 n`). -/
def beBytes : Nat → Nat → List Nat
  | 0, _ => []
  | w + 1, n => beBytes w (n / 256) ++ [n % 256]

/-- Big-endian byte-list to number (`struct.unpack("!I", ...)`). -/
def fromBE (bs : List Nat) : Nat := bs.foldl (fun acc b => acc * 256 + b) 0

theorem beBytes_length (w n : Nat) : (beBytes w n).length = w := by
  induction w generalizing n with
  | zero => rfl
  | succ w ih => rw [beBytes]; simp [ih]

theorem fromBE_beBytes (w n : Nat) (h : n < 256 ^ w) :
    fromBE (beBytes w n) = n := by
  induction w generalizing n with
  | zero =>
    interval_cases n
    rfl
  | succ w ih =>
    have hdiv : n / 256 < 256 ^ w := by
      rw [Nat.div_lt_iff_lt_mul (by norm_num)]
      calc n < 256 ^ (w + 1) := h
        _ = 256 ^ w * 256 := by ring
    rw [beBytes, fromBE, List.foldl_append]
    have : List.foldl (fun acc b => acc * 256 + b) 0 (beBytes w (n / 256)) = n / 256 :=
      ih (n / 256) hdiv
    rw [this]
    simp
    omega

/-- MessagePack values of the subset exchanged by wsterm: packet
envelopes are maps; payloads are strings (modelled by their UTF-8
bytes), byte strings, signed integers, booleans, arrays and nested
maps; `None` serializes to nil. -/
inductive MVal where
  | nil
  | bool (b : Bool)
  | int (i : Int)
  | str (s : List Nat)
  | bin (b : List Nat)
  | arr (l : List MVal)
  | dict (l : List (MVal × MVal))
deriving Repr

mutual

/-- Structural equality of MessagePack values (Python `==`). -/
def MVal.beq : MVal → MVal → Bool
  | .nil, .nil => true
  | .bool a, .bool b => a = b
  | .int a, .int b => a = b
  | .str a, .str b => a = b
  | .bin a, .bin b => a = b
  | .arr a, .arr b => MVal.beqList a b
  | .dict a, .dict b => MVal.beqPairs a b
  | _, _ => false

def MVal.beqList : List MVal → List MVal → Bool
  | [], [] => true
  | a :: as_, b :: bs => MVal.beq a b && MVal.beqList as_ bs
  | _, _ => false

def MVal.beqPairs : List (MVal × MVal) → List (MVal × MVal) → Bool
  | [], [] => true
  | (k1, v1) :: as_, (k2, v2) :: bs =>
    MVal.beq k1 k2 && MVal.beq v1 v2 && MVal.beqPairs as_ bs
  | _, _ => false

end

mutual

theorem MVal.beq_to_eq : {a b : MVal} → MVal.beq a b = true → a = b
  | .nil, .nil, _ => rfl
  | .bool a, .bool b, h => by
    simp only [MVal.beq, decide_eq_true_eq] at h; rw [h]
  | .int a, .int b, h => by
    simp only [MVal.beq, decide_eq_true_eq] at h; rw [h]
  | .str a, .str b, h => by
    simp only [MVal.beq, decide_eq_true_eq] at h; rw [h]
  | .bin a, .bin b, h => by
    simp only [MVal.beq, decide_eq_true_eq] at h; rw [h]
  | .arr a, .arr b, h => by
    simp only [MVal.beq] at h; rw [MVal.eq_of_beqList h]
  | .dict a, .dict b, h => by
    simp only [MVal.beq] at h; rw [MVal.eq_of_beqPairs h]
  | .nil, .bool _, h => by simp [MVal.beq] at h
  | .nil, .int _, h => by simp [MVal.beq] at h
  | .nil, .str _, h => by simp [MVal.beq] at h
  | .nil, .bin _, h => by simp [MVal.beq] at h
  | .nil, .arr _, h => by simp [MVal.beq] at h
  | .nil, .dict _, h => by simp [MVal.beq] at h
  | .bool _, .nil, h => by simp [MVal.beq] at h
  | .bool _, .int _, h => by simp [MVal.beq] at h
  | .bool _, .str _, h => by simp [MVal.beq] at h
  | .bool _, .bin _, h => by simp [MVal.beq] at h
  | .bool _, .arr _, h => by simp [MVal.beq] at h
  | .bool _, .dict _, h => by simp [MVal.beq] at h
  | .int _, .nil, h => by simp [MVal.beq] at h
  | .int _, .bool _, h => by simp [MVal.beq] at h
  | .int _, .str _, h => by simp [MVal.beq] at h
  | .int _, .bin _, h => by simp [MVal.beq] at h
  | .int _, .arr _, h => by simp [MVal.beq] at h
  | .int _, .dict _, h => by simp [MVal.beq] at h
  | .str _, .nil, h => by simp [MVal.beq] at h
  | .str _, .bool _, h => by simp [MVal.beq] at h
  | .str _, .int _, h => by simp [MVal.beq] at h
  | .str _, .bin _, h => by simp [MVal.beq] at h
  | .str _, .arr _, h => by simp [MVal.beq] at h
  | .str _, .dict _, h => by simp [MVal.beq] at h
  | .bin _, .nil, h => by simp [MVal.beq] at h
  | .bin _, .bool _, h => by simp [MVal.beq] at h
  | .bin _, .int _, h => by simp [MVal.beq] at h
  | .bin _, .str _, h => by simp [MVal.beq] at h
  | .bin _, .arr _, h => by simp [MVal.beq] at h
  | .bin _, .dict _, h => by simp [MVal.beq] at h
  | .arr _, .nil, h => by simp [MVal.beq] at h
  | .arr _, .bool _, h => by simp [MVal.beq] at h
  | .arr _, .int _, h => by simp [MVal.beq] at h
  | .arr _, .str _, h => by simp [MVal.beq] at h
  | .arr _, .bin _, h => by simp [MVal.beq] at h
  | .arr _, .dict _, h => by simp [MVal.beq] at h
  | .dict _, .nil, h => by simp [MVal.beq] at h
  | .dict _, .bool _, h => by simp [MVal.beq] at h
  | .dict _, .int _, h => by simp [MVal.beq] at h
  | .dict _, .str _, h => by simp [MVal.beq] at h
  | .dict _, .bin _, h => by simp [MVal.beq] at h
  | .dict _, .arr _, h => by simp [MVal.beq] at h

theorem MVal.eq_of_beqList : {a b : List MVal} → MVal.beqList a b = true → a = b
  | [], [], _ => rfl
  | x :: xs, y :: ys, h => by
    simp only [MVal.beqList, Bool.and_eq_true] at h
    rw [MVal.beq_to_eq h.1, MVal.eq_of_beqList h.2]
  | [], _ :: _, h => by simp [MVal.beqList] at h
  | _ :: _, [], h => by simp [MVal.beqList] at h

theorem MVal.eq_of_beqPairs : {a b : List (MVal × MVal)} →
    MVal.beqPairs a b = true → a = b
  | [], [], _ => rfl
  | (k1, v1) :: xs, (k2, v2) :: ys, h => by
    simp only [MVal.beqPairs, Bool.and_eq_true] at h
    rw [MVal.beq_to_eq h.1.1, MVal.beq_to_eq h.1.2, MVal.eq_of_beqPairs h.2]
  | [], _ :: _, h => by simp [MVal.beqPairs] at h
  | _ :: _, [], h => by simp [MVal.beqPairs] at h

end

mutual

theorem MVal.beq_rfl : (v : MVal) → MVal.beq v v = true
  | .nil => rfl
  | .bool b => by simp [MVal.beq]
  | .int i => by simp [MVal.beq]
  | .str s => by simp [MVal.beq]
  | .bin b => by simp [MVal.beq]
  | .arr l => by rw [MVal.beq]; exact MVal.beqList_refl l
  | .dict l => by rw [MVal.beq]; exact MVal.beqPairs_refl l

theorem MVal.beqList_refl : (l : List MVal) → MVal.beqList l l = true
  | [] => rfl
  | x :: xs => by
    rw [MVal.beqList, MVal.beq_rfl x, MVal.beqList_refl xs]
    rfl

theorem MVal.beqPairs_refl : (l : List (MVal × MVal)) → MVal.beqPairs l l = true
  | [] => rfl
  | (k, v) :: xs => by
    rw [MVal.beqPairs, MVal.beq_rfl k, MVal.beq_rfl v, MVal.beqPairs_refl xs]
    rfl

end

instance : DecidableEq MVal := fun a b =>
  if h : MVal.beq a b then .isTrue (MVal.beq_to_eq h)
  else .isFalse (fun he => h (he ▸ MVal.beq_rfl a))

mutual

/-- msgpack.dumps on the subset in use: the canonical smallest-form
headers msgpack-python emits (positive/negative fixint, uint8/16/32/64,
int8/16/32/64 in two's complement, fixstr/str8/16/32, bin8/16/32,
fixarray/array16/32, fixmap/map16/32). -/
def mpackEncode : MVal → List Nat
  | .nil => [0xc0]
  | .bool false => [0xc2]
  | .bool true => [0xc3]
  | .int i =>
    if 0 ≤ i then
      if i ≤ 0x7f then [i.toNat]
      else if i ≤ 0xff then [0xcc, i.toNat]
      else if i ≤ 0xffff then 0xcd :: beBytes 2 i.toNat
      else if i ≤ 0xffffffff then 0xce :: beBytes 4 i.toNat
      else 0xcf :: beBytes 8 i.toNat
    else
      if -32 ≤ i then [(i + 0x100).toNat]
      else if -128 ≤ i then [0xd0, (i + 0x100).toNat]
      else if -32768 ≤ i then 0xd1 :: beBytes 2 (i + 0x10000).toNat
      else if -2147483648 ≤ i then 0xd2 :: beBytes 4 (i + 0x100000000).toNat
      else 0xd3 :: beBytes 8 (i + 0x10000000000000000).toNat
  | .str s =>
    (if s.length ≤ 31 then [0xa0 + s.length]
     else if s.length ≤ 0xff then [0xd9, s.length]
     else if s.length ≤ 0xffff then 0xda :: beBytes 2 s.length
     else 0xdb :: beBytes 4 s.length) ++ s
  | .bin b =>
    (if b.length ≤ 0xff then [0xc4, b.length]
     else if b.length ≤ 0xffff then 0xc5 :: beBytes 2 b.length
     else 0xc6 :: beBytes 4 b.length) ++ b
  | .arr l =>
    (if l.length ≤ 15 then [0x90 + l.length]
     else if l.length ≤ 0xffff then 0xdc :: beBytes 2 l.length
     else 0xdd :: beBytes 4 l.length) ++ mpackEncodeList l
  | .dict l =>
    (if l.length ≤ 15 then [0x80 + l.length]
     else if l.length ≤ 0xffff then 0xde :: beBytes 2 l.length
     else 0xdf :: beBytes 4 l.length) ++ mpackEncodePairs l

/-- Concatenated encodings of the elements of an array. -/
def mpackEncodeList : List MVal → List Nat
  | [] => []
  | v :: rest => mpackEncode v ++ mpackEncodeList rest

/-- Concatenated key/value encodings of the entries of a map. -/
def mpackEncodePairs : List (MVal × MVal) → List Nat
  | [] => []
  | (k, v) :: rest => mpackEncode k ++ mpackEncode v ++ mpackEncodePairs rest

end

mutual

/-- Values accepted by the subset in use: integers fit 64 bits (signed
or unsigned), byte payloads are bytes and fit the 32-bit length fields,
containers fit the 32-bit count fields. -/
def mpackWf : MVal → Bool
  | .nil => true
  | .bool _ => true
  | .int i => decide (-0x8000000000000000 ≤ i ∧ i < 0x10000000000000000)
  | .str s => decide (s.length < 0x100000000) && s.all (· < 256)
  | .bin b => decide (b.length < 0x100000000) && b.all (· < 256)
  | .arr l => decide (l.length < 0x100000000) && mpackWfList l
  | .dict l => decide (l.length < 0x100000000) && mpackWfPairs l

/-- All elements well formed. -/
def mpackWfList : List MVal → Bool
  | [] => true
  | v :: rest => mpackWf v && mpackWfList rest

/-- All keys and values well formed. -/
def mpackWfPairs : List (MVal × MVal) → Bool
  | [] => true
  | (k, v) :: rest => mpackWf k && mpackWf v && mpackWfPairs rest

end

mutual

/-- Nesting depth of a value (containers add one level). -/
def mpackDepth : MVal → Nat
  | .nil | .bool _ | .int _ | .str _ | .bin _ => 1
  | .arr l => 1 + mpackDepthList l
  | .dict l => 1 + mpackDepthPairs l

/-- Maximum depth of the elements. -/
def mpackDepthList : List MVal → Nat
  | [] => 0
  | v :: rest => max (mpackDepth v) (mpackDepthList rest)

/-- Maximum depth of the keys and values. -/
def mpackDepthPairs : List (MVal × MVal) → Nat
  | [] => 0
  | (k, v) :: rest => max (max (mpackDepth k) (mpackDepth v)) (mpackDepthPairs rest)

end

/-- Take exactly `n` bytes from the stream. -/
def takeBytes (n : Nat) (l : List Nat) : Option (List Nat × List Nat) :=
  if n ≤ l.length then some (l.take n, l.drop n) else none

/-- Read a `w`-byte big-endian length field. -/
def takeLen (w : Nat) (l : List Nat) : Option (Nat × List Nat) :=
  (takeBytes w l).map fun p => (fromBE p.1, p.2)

/-- Two's-complement reading of a `w`-byte big-endian signed field. -/
def signedOf (w n : Nat) : Int :=
  if n < 2 ^ (8 * w - 1) then (n : Int) else (n : Int) - 2 ^ (8 * w)

/-- Decode `n` consecutive values with the element decoder `f`. -/
def decodeSeq (f : List Nat → Option (MVal × List Nat)) :
    Nat → List Nat → Option (List MVal × List Nat)
  | 0, l => some ([], l)
  | n + 1, l =>
    match f l with
    | none => none
    | some (v, r1) =>
      match decodeSeq f n r1 with
      | none => none
      | some (vs, r2) => some (v :: vs, r2)

/-- Decode `n` consecutive key/value pairs with the element decoder `f`. -/
def decodePairSeq (f : List Nat → Option (MVal × List Nat)) :
    Nat → List Nat → Option (List (MVal × MVal) × List Nat)
  | 0, l => some ([], l)
  | n + 1, l =>
    match f l with
    | none => none
    | some (k, r1) =>
      match f r1 with
      | none => none
      | some (v, r2) =>
        match decodePairSeq f n r2 with
        | none => none
        | some (ps, r3) => some ((k, v) :: ps, r3)

/-- Header classification of the first byte of a MessagePack value, as
msgpack-python dispatches on it; headers outside the subset in use
(0xc1, ext, float) are invalid. -/
inductive MHdr where
  | posfixint (n : Nat)
  | fixmap (n : Nat)
  | fixarr (n : Nat)
  | fixstr (n : Nat)
  | mnil | mfalse | mtrue
  | bin8 | bin16 | bin32
  | uint8 | uint16 | uint32 | uint64
  | int8 | int16 | int32 | int64
  | str8 | str16 | str32
  | arr16 | arr32 | map16 | map32
  | negfixint (n : Nat)
  | invalid
deriving DecidableEq, Repr

/-- Classify a header byte. -/
def mHdr (b : Nat) : MHdr :=
  if b ≤ 0x7f then .posfixint b
  else if b ≤ 0x8f then .fixmap (b - 0x80)
  else if b ≤ 0x9f then .fixarr (b - 0x90)
  else if b ≤ 0xbf then .fixstr (b - 0xa0)
  else if b = 0xc0 then .mnil
  else if b = 0xc2 then .mfalse
  else if b = 0xc3 then .mtrue
  else if b = 0xc4 then .bin8
  else if b = 0xc5 then .bin16
  else if b = 0xc6 then .bin32
  else if b = 0xcc then .uint8
  else if b = 0xcd then .uint16
  else if b = 0xce then .uint32
  else if b = 0xcf then .uint64
  else if b = 0xd0 then .int8
  else if b = 0xd1 then .int16
  else if b = 0xd2 then .int32
  else if b = 0xd3 then .int64
  else if b = 0xd9 then .str8
  else if b = 0xda then .str16
  else if b = 0xdb then .str32
  else if b = 0xdc then .arr16
  else if b = 0xdd then .arr32
  else if b = 0xde then .map16
  else if b = 0xdf then .map32
  else if 0xe0 ≤ b ∧ b ≤ 0xff then .negfixint b
  else .invalid

/-- Read a `w`-byte length field, then that many payload bytes, and wrap
them with `mk` (the str8/16/32 and bin8/16/32 forms). -/
def decodeSized (w : Nat) (mk : List Nat → MVal) (l : List Nat) :
    Option (MVal × List Nat) :=
  match takeLen w l with
  | none => none
  | some (len, r1) =>
    match takeBytes len r1 with
    | none => none
    | some (s, r2) => some (mk s, r2)

/-- Read a `w`-byte unsigned integer (uint8/16/32/64 forms). -/
def decodeUint (w : Nat) (l : List Nat) : Option (MVal × List Nat) :=
  match takeLen w l with
  | none => none
  | some (n, r) => some (.int n, r)

/-- Read a `w`-byte two's-complement integer (int8/16/32/64 forms). -/
def decodeSint (w : Nat) (l : List Nat) : Option (MVal × List Nat) :=
  match takeLen w l with
  | none => none
  | some (n, r) => some (.int (signedOf w n), r)

/-- Read a `w`-byte count, then that many elements (array16/32 forms). -/
def decodeArrSized (f : List Nat → Option (MVal × List Nat)) (w : Nat)
    (l : List Nat) : Option (MVal × List Nat) :=
  match takeLen w l with
  | none => none
  | some (n, r1) =>
    match decodeSeq f n r1 with
    | none => none
    | some (vs, r2) => some (.arr vs, r2)

/-- Read a `w`-byte count, then that many pairs (map16/32 forms). -/
def decodeMapSized (f : List Nat → Option (MVal × List Nat)) (w : Nat)
    (l : List Nat) : Option (MVal × List Nat) :=
  match takeLen w l with
  | none => none
  | some (n, r1) =>
    match decodePairSeq f n r1 with
    | none => none
    | some (ps, r2) => some (.dict ps, r2)

/-- One-value MessagePack decoder over the subset in use, structurally
recursive in a nesting-depth fuel (each container level consumes one
unit).  Headers outside the subset and truncated input yield `none`;
residual bytes are returned. -/
def mpackDecode : Nat → List Nat → Option (MVal × List Nat)
  | 0, _ => none
  | _ + 1, [] => none
  | fuel + 1, b :: rest =>
    match mHdr b with
    | .posfixint n => some (.int n, rest)
    | .fixmap n =>
      match decodePairSeq (mpackDecode fuel) n rest with
      | none => none
      | some (ps, r) => some (.dict ps, r)
    | .fixarr n =>
      match decodeSeq (mpackDecode fuel) n rest with
      | none => none
      | some (vs, r) => some (.arr vs, r)
    | .fixstr n =>
      match takeBytes n rest with
      | none => none
      | some (s, r) => some (.str s, r)
    | .mnil => some (.nil, rest)
    | .mfalse => some (.bool false, rest)
    | .mtrue => some (.bool true, rest)
    | .bin8 => decodeSized 1 .bin rest
    | .bin16 => decodeSized 2 .bin rest
    | .bin32 => decodeSized 4 .bin rest
    | .uint8 => decodeUint 1 rest
    | .uint16 => decodeUint 2 rest
    | .uint32 => decodeUint 4 rest
    | .uint64 => decodeUint 8 rest
    | .int8 => decodeSint 1 rest
    | .int16 => decodeSint 2 rest
    | .int32 => decodeSint 4 rest
    | .int64 => decodeSint 8 rest
    | .str8 => decodeSized 1 .str rest
    | .str16 => decodeSized 2 .str rest
    | .str32 => decodeSized 4 .str rest
    | .arr16 => decodeArrSized (mpackDecode fuel) 2 rest
    | .arr32 => decodeArrSized (mpackDecode fuel) 4 rest
    | .map16 => decodeMapSized (mpackDecode fuel) 2 rest
    | .map32 => decodeMapSized (mpackDecode fuel) 4 rest
    | .negfixint n => some (.int ((n : Int) - 0x100), rest)
    | .invalid => none

/-- msgpack.loads: decode one value and require full consumption (extra
bytes raise in msgpack-python); the fuel `length + 1` dominates any
nesting depth the bytes can express. -/
def mpackLoads (bs : List Nat) : Option MVal :=
  match mpackDecode (bs.length + 1) bs with
  | some (v, []) => some v
  | _ => none

theorem takeBytes_append (l rest : List Nat) :
    takeBytes l.length (l ++ rest) = some (l, rest) := by
  rw [takeBytes, if_pos (by simp)]
  simp

theorem takeLen_one (x : Nat) (rest : List Nat) :
    takeLen 1 (x :: rest) = some (x, rest) := by
  simp [takeLen, takeBytes, fromBE]

theorem takeLen_beBytes (w n : Nat) (rest : List Nat) (h : n < 256 ^ w) :
    takeLen w (beBytes w n ++ rest) = some (n, rest) := by
  rw [takeLen]
  have hb : takeBytes w (beBytes w n ++ rest) = some (beBytes w n, rest) := by
    have := takeBytes_append (beBytes w n) rest
    rwa [beBytes_length] at this
  rw [hb]
  simp [fromBE_beBytes w n h]

theorem decodeSeq_append (f : List Nat → Option (MVal × List Nat))
    (l : List MVal) (rest : List Nat)
    (h : ∀ v ∈ l, ∀ r, f (mpackEncode v ++ r) = some (v, r)) :
    decodeSeq f l.length (mpackEncodeList l ++ rest) = some (l, rest) := by
  induction l with
  | nil => rfl
  | cons v vs ih =>
    rw [mpackEncodeList, List.length_cons, decodeSeq, List.append_assoc]
    simp only [h v (List.mem_cons_self v vs)]
    simp only [ih fun x hx r => h x (List.mem_cons_of_mem v hx) r]

theorem decodePairSeq_append (f : List Nat → Option (MVal × List Nat))
    (l : List (MVal × MVal)) (rest : List Nat)
    (h : ∀ p ∈ l, (∀ r, f (mpackEncode p.1 ++ r) = some (p.1, r)) ∧
         (∀ r, f (mpackEncode p.2 ++ r) = some (p.2, r))) :
    decodePairSeq f l.length (mpackEncodePairs l ++ rest) = some (l, rest) := by
  induction l with
  | nil => rfl
  | cons p ps ih =>
    obtain ⟨k, v⟩ := p
    rw [mpackEncodePairs, List.length_cons, decodePairSeq]
    rw [List.append_assoc, List.append_assoc]
    simp only [(h (k, v) (List.mem_cons_self _ _)).1]
    simp only [(h (k, v) (List.mem_cons_self _ _)).2]
    simp only [ih fun x hx => h x (List.mem_cons_of_mem _ hx)]

theorem mpackWfList_mem {l : List MVal} (h : mpackWfList l = true) :
    ∀ v ∈ l, mpackWf v = true := by
  induction l with
  | nil => intro v hv; cases hv
  | cons x xs ih =>
    rw [mpackWfList, Bool.and_eq_true] at h
    intro v hv
    rcases List.mem_cons.1 hv with rfl | hv'
    · exact h.1
    · exact ih h.2 v hv'

theorem mpackWfPairs_mem {l : List (MVal × MVal)} (h : mpackWfPairs l = true) :
    ∀ p ∈ l, mpackWf p.1 = true ∧ mpackWf p.2 = true := by
  induction l with
  | nil => intro p hp; cases hp
  | cons x xs ih =>
    obtain ⟨k, v⟩ := x
    rw [mpackWfPairs, Bool.and_eq_true, Bool.and_eq_true] at h
    intro p hp
    rcases List.mem_cons.1 hp with rfl | hp'
    · exact ⟨h.1.1, h.1.2⟩
    · exact ih h.2 p hp'

theorem mpackDepthList_mem {l : List MVal} :
    ∀ v ∈ l, mpackDepth v ≤ mpackDepthList l := by
  induction l with
  | nil => intro v hv; cases hv
  | cons x xs ih =>
    intro v hv
    rw [mpackDepthList]
    rcases List.mem_cons.1 hv with rfl | hv'
    · exact le_max_left _ _
    · exact le_trans (ih v hv') (le_max_right _ _)

theorem mpackDepthPairs_mem {l : List (MVal × MVal)} :
    ∀ p ∈ l, mpackDepth p.1 ≤ mpackDepthPairs l ∧
      mpackDepth p.2 ≤ mpackDepthPairs l := by
  induction l with
  | nil => intro p hp; cases hp
  | cons x xs ih =>
    obtain ⟨k, v⟩ := x
    intro p hp
    rw [mpackDepthPairs]
    rcases List.mem_cons.1 hp with rfl | hp'
    · exact ⟨le_trans (le_max_left _ _) (le_max_left _ _),
             le_trans (le_max_right _ _) (le_max_left _ _)⟩
    · exact ⟨le_trans (ih p hp').1 (le_max_right _ _),
             le_trans (ih p hp').2 (le_max_right _ _)⟩

theorem mHdr_posfixint (n : Nat) (h : n ≤ 0x7f) : mHdr n = .posfixint n := by
  rw [mHdr, if_pos h]

theorem mHdr_fixmap (n : Nat) (h : n ≤ 15) : mHdr (0x80 + n) = .fixmap n := by
  rw [mHdr, if_neg (by omega), if_pos (by omega), Nat.add_sub_cancel_left]

theorem mHdr_fixarr (n : Nat) (h : n ≤ 15) : mHdr (0x90 + n) = .fixarr n := by
  rw [mHdr, if_neg (by omega), if_neg (by omega), if_pos (by omega),
    Nat.add_sub_cancel_left]

theorem mHdr_fixstr (n : Nat) (h : n ≤ 31) : mHdr (0xa0 + n) = .fixstr n := by
  rw [mHdr, if_neg (by omega), if_neg (by omega), if_neg (by omega),
    if_pos (by omega), Nat.add_sub_cancel_left]

theorem mHdr_negfixint (b : Nat) (h1 : 0xe0 ≤ b) (h2 : b ≤ 0xff) :
    mHdr b = .negfixint b := by
  interval_cases b <;> rfl


theorem signedOf_neg (w n : Nat) (h : 2 ^ (8 * w - 1) ≤ n) :
    signedOf w n = (n : Int) - 2 ^ (8 * w) := by
  rw [signedOf, if_neg (by omega)]

set_option maxHeartbeats 1600000

/-- Round trip of the MessagePack codec on the subset in use: decoding
an encoded well-formed value returns the value and the untouched
trailing bytes, given fuel at least the value's nesting depth. -/
theorem mpackDecode_encode : (m : MVal) → ∀ (fuel : Nat) (rest : List Nat),
    mpackWf m = true → mpackDepth m ≤ fuel →
    mpackDecode fuel (mpackEncode m ++ rest) = some (m, rest)
  | .nil, fuel, rest, hwf, hd => by
    obtain ⟨f, rfl⟩ : ∃ f, fuel = f + 1 := ⟨fuel - 1, by rw [mpackDepth] at hd; omega⟩
    rw [mpackEncode, List.singleton_append, mpackDecode,
      show mHdr 0xc0 = .mnil from rfl]
  | .bool false, fuel, rest, hwf, hd => by
    obtain ⟨f, rfl⟩ : ∃ f, fuel = f + 1 := ⟨fuel - 1, by rw [mpackDepth] at hd; omega⟩
    rw [mpackEncode, List.singleton_append, mpackDecode,
      show mHdr 0xc2 = .mfalse from rfl]
  | .bool true, fuel, rest, hwf, hd => by
    obtain ⟨f, rfl⟩ : ∃ f, fuel = f + 1 := ⟨fuel - 1, by rw [mpackDepth] at hd; omega⟩
    rw [mpackEncode, List.singleton_append, mpackDecode,
      show mHdr 0xc3 = .mtrue from rfl]
  | .int i, fuel, rest, hwf, hd => by
    obtain ⟨f, rfl⟩ : ∃ f, fuel = f + 1 := ⟨fuel - 1, by rw [mpackDepth] at hd; omega⟩
    rw [mpackWf, decide_eq_true_eq] at hwf
    rw [mpackEncode]
    split_ifs with hpos h7f hff hffff hffffffff hm32 hm128 hm32768 hm2p31
    · rw [List.singleton_append, mpackDecode, mHdr_posfixint _ (by omega)]
      simp only [Option.some.injEq, Prod.mk.injEq, MVal.int.injEq, and_true]
      omega
    · rw [List.cons_append, List.singleton_append, mpackDecode,
        show mHdr 0xcc = .uint8 from rfl]
      simp only [decodeUint, takeLen_one, Option.some.injEq, Prod.mk.injEq,
        MVal.int.injEq, and_true]
      omega
    · rw [List.cons_append, mpackDecode, show mHdr 0xcd = .uint16 from rfl]
      have hp : (256 : Nat) ^ 2 = 65536 := by norm_num
      rw [show decodeUint 2 (beBytes 2 i.toNat ++ rest) =
        some (.int i.toNat, rest) from by
          rw [decodeUint, takeLen_beBytes 2 _ _ (by omega)]]
      simp only [Option.some.injEq, Prod.mk.injEq, MVal.int.injEq, and_true]
      omega
    · rw [List.cons_append, mpackDecode, show mHdr 0xce = .uint32 from rfl]
      have hp : (256 : Nat) ^ 4 = 4294967296 := by norm_num
      rw [show decodeUint 4 (beBytes 4 i.toNat ++ rest) =
        some (.int i.toNat, rest) from by
          rw [decodeUint, takeLen_beBytes 4 _ _ (by omega)]]
      simp only [Option.some.injEq, Prod.mk.injEq, MVal.int.injEq, and_true]
      omega
    · rw [List.cons_append, mpackDecode, show mHdr 0xcf = .uint64 from rfl]
      have hp : (256 : Nat) ^ 8 = 18446744073709551616 := by norm_num
      rw [show decodeUint 8 (beBytes 8 i.toNat ++ rest) =
        some (.int i.toNat, rest) from by
          rw [decodeUint, takeLen_beBytes 8 _ _ (by omega)]]
      simp only [Option.some.injEq, Prod.mk.injEq, MVal.int.injEq, and_true]
      omega
    · rw [List.singleton_append, mpackDecode, mHdr_negfixint _ (by omega) (by omega)]
      simp only [Option.some.injEq, Prod.mk.injEq, MVal.int.injEq, and_true]
      omega
    · rw [List.cons_append, List.singleton_append, mpackDecode,
        show mHdr 0xd0 = .int8 from rfl]
      simp only [decodeSint, takeLen_one]
      rw [signedOf_neg 1 _ (by
        have hq : (2 : Nat) ^ (8 * 1 - 1) = 128 := by norm_num
        omega)]
      simp only [Option.some.injEq, Prod.mk.injEq, MVal.int.injEq, and_true]
      have hq : (2 : Int) ^ (8 * 1) = 256 := by norm_num
      rw [hq]
      omega
    · rw [List.cons_append, mpackDecode, show mHdr 0xd1 = .int16 from rfl]
      have hp : (256 : Nat) ^ 2 = 65536 := by norm_num
      rw [show decodeSint 2 (beBytes 2 (i + 0x10000).toNat ++ rest) =
        some (.int (signedOf 2 (i + 0x10000).toNat), rest) from by
          rw [decodeSint, takeLen_beBytes 2 _ _ (by omega)]]
      rw [signedOf_neg 2 _ (by
        have hq : (2 : Nat) ^ (8 * 2 - 1) = 32768 := by norm_num
        omega)]
      simp only [Option.some.injEq, Prod.mk.injEq, MVal.int.injEq, and_true]
      have hq : (2 : Int) ^ (8 * 2) = 65536 := by norm_num
      rw [hq]
      omega
    · rw [List.cons_append, mpackDecode, show mHdr 0xd2 = .int32 from rfl]
      have hp : (256 : Nat) ^ 4 = 4294967296 := by norm_num
      rw [show decodeSint 4 (beBytes 4 (i + 0x100000000).toNat ++ rest) =
        some (.int (signedOf 4 (i + 0x100000000).toNat), rest) from by
          rw [decodeSint, takeLen_beBytes 4 _ _ (by omega)]]
      rw [signedOf_neg 4 _ (by
        have hq : (2 : Nat) ^ (8 * 4 - 1) = 2147483648 := by norm_num
        omega)]
      simp only [Option.some.injEq, Prod.mk.injEq, MVal.int.injEq, and_true]
      have hq : (2 : Int) ^ (8 * 4) = 4294967296 := by norm_num
      rw [hq]
      omega
    · rw [List.cons_append, mpackDecode, show mHdr 0xd3 = .int64 from rfl]
      have hp : (256 : Nat) ^ 8 = 18446744073709551616 := by norm_num
      rw [show decodeSint 8 (beBytes 8 (i + 0x10000000000000000).toNat ++ rest) =
        some (.int (signedOf 8 (i + 0x10000000000000000).toNat), rest) from by
          rw [decodeSint, takeLen_beBytes 8 _ _ (by omega)]]
      rw [signedOf_neg 8 _ (by
        have hq : (2 : Nat) ^ (8 * 8 - 1) = 9223372036854775808 := by norm_num
        omega)]
      simp only [Option.some.injEq, Prod.mk.injEq, MVal.int.injEq, and_true]
      have hq : (2 : Int) ^ (8 * 8) = 18446744073709551616 := by norm_num
      rw [hq]
      omega
  | .str s, fuel, rest, hwf, hd => by
    obtain ⟨f, rfl⟩ : ∃ f, fuel = f + 1 := ⟨fuel - 1, by rw [mpackDepth] at hd; omega⟩
    rw [mpackWf, Bool.and_eq_true, decide_eq_true_eq] at hwf
    rw [mpackEncode]
    split_ifs with h31 h255 h65535
    · rw [List.append_assoc, List.singleton_append, mpackDecode, mHdr_fixstr _ h31]
      simp [takeBytes_append]
    · rw [List.append_assoc, List.cons_append, List.singleton_append, mpackDecode,
        show mHdr 0xd9 = .str8 from rfl]
      simp [decodeSized, takeLen_one, takeBytes_append]
    · rw [List.append_assoc, List.cons_append, mpackDecode,
        show mHdr 0xda = .str16 from rfl]
      have hp : (256 : Nat) ^ 2 = 65536 := by norm_num
      rw [show decodeSized 2 MVal.str (beBytes 2 s.length ++ (s ++ rest)) =
        some (.str s, rest) from by
          rw [decodeSized, takeLen_beBytes 2 _ _ (by omega)]
          simp [takeBytes_append]]
    · rw [List.append_assoc, List.cons_append, mpackDecode,
        show mHdr 0xdb = .str32 from rfl]
      have hp : (256 : Nat) ^ 4 = 4294967296 := by norm_num
      rw [show decodeSized 4 MVal.str (beBytes 4 s.length ++ (s ++ rest)) =
        some (.str s, rest) from by
          rw [decodeSized, takeLen_beBytes 4 _ _ (by omega)]
          simp [takeBytes_append]]
  | .bin b, fuel, rest, hwf, hd => by
    obtain ⟨f, rfl⟩ : ∃ f, fuel = f + 1 := ⟨fuel - 1, by rw [mpackDepth] at hd; omega⟩
    rw [mpackWf, Bool.and_eq_true, decide_eq_true_eq] at hwf
    rw [mpackEncode]
    split_ifs with h255 h65535
    · rw [List.append_assoc, List.cons_append, List.singleton_append, mpackDecode,
        show mHdr 0xc4 = .bin8 from rfl]
      simp [decodeSized, takeLen_one, takeBytes_append]
    · rw [List.append_assoc, List.cons_append, mpackDecode,
        show mHdr 0xc5 = .bin16 from rfl]
      have hp : (256 : Nat) ^ 2 = 65536 := by norm_num
      rw [show decodeSized 2 MVal.bin (beBytes 2 b.length ++ (b ++ rest)) =
        some (.bin b, rest) from by
          rw [decodeSized, takeLen_beBytes 2 _ _ (by omega)]
          simp [takeBytes_append]]
    · rw [List.append_assoc, List.cons_append, mpackDecode,
        show mHdr 0xc6 = .bin32 from rfl]
      have hp : (256 : Nat) ^ 4 = 4294967296 := by norm_num
      rw [show decodeSized 4 MVal.bin (beBytes 4 b.length ++ (b ++ rest)) =
        some (.bin b, rest) from by
          rw [decodeSized, takeLen_beBytes 4 _ _ (by omega)]
          simp [takeBytes_append]]
  | .arr l, fuel, rest, hwf, hd => by
    obtain ⟨f, rfl⟩ : ∃ f, fuel = f + 1 := ⟨fuel - 1, by rw [mpackDepth] at hd; omega⟩
    rw [mpackDepth] at hd
    rw [mpackWf, Bool.and_eq_true, decide_eq_true_eq] at hwf
    have helem : ∀ v ∈ l, ∀ r, mpackDecode f (mpackEncode v ++ r) = some (v, r) :=
      fun v hv r => mpackDecode_encode v f r (mpackWfList_mem hwf.2 v hv)
        (le_trans (mpackDepthList_mem v hv) (by omega))
    rw [mpackEncode]
    split_ifs with h15 h65535
    · rw [List.append_assoc, List.singleton_append, mpackDecode, mHdr_fixarr _ h15]
      simp [decodeSeq_append (mpackDecode f) l rest helem]
    · rw [List.append_assoc, List.cons_append, mpackDecode,
        show mHdr 0xdc = .arr16 from rfl]
      have hp : (256 : Nat) ^ 2 = 65536 := by norm_num
      rw [show decodeArrSized (mpackDecode f) 2
            (beBytes 2 l.length ++ (mpackEncodeList l ++ rest)) =
          some (.arr l, rest) from by
        rw [decodeArrSized, takeLen_beBytes 2 _ _ (by omega)]
        simp [decodeSeq_append (mpackDecode f) l rest helem]]
    · rw [List.append_assoc, List.cons_append, mpackDecode,
        show mHdr 0xdd = .arr32 from rfl]
      have hp : (256 : Nat) ^ 4 = 4294967296 := by norm_num
      rw [show decodeArrSized (mpackDecode f) 4
            (beBytes 4 l.length ++ (mpackEncodeList l ++ rest)) =
          some (.arr l, rest) from by
        rw [decodeArrSized, takeLen_beBytes 4 _ _ (by omega)]
        simp [decodeSeq_append (mpackDecode f) l rest helem]]
  | .dict l, fuel, rest, hwf, hd => by
    obtain ⟨f, rfl⟩ : ∃ f, fuel = f + 1 := ⟨fuel - 1, by rw [mpackDepth] at hd; omega⟩
    rw [mpackDepth] at hd
    rw [mpackWf, Bool.and_eq_true, decide_eq_true_eq] at hwf
    have hpair : ∀ p ∈ l, (∀ r, mpackDecode f (mpackEncode p.1 ++ r) = some (p.1, r)) ∧
        (∀ r, mpackDecode f (mpackEncode p.2 ++ r) = some (p.2, r)) :=
      fun p hp =>
        ⟨fun r => mpackDecode_encode p.1 f r (mpackWfPairs_mem hwf.2 p hp).1
          (le_trans (mpackDepthPairs_mem p hp).1 (by omega)),
         fun r => mpackDecode_encode p.2 f r (mpackWfPairs_mem hwf.2 p hp).2
          (le_trans (mpackDepthPairs_mem p hp).2 (by omega))⟩
    rw [mpackEncode]
    split_ifs with h15 h65535
    · rw [List.append_assoc, List.singleton_append, mpackDecode, mHdr_fixmap _ h15]
      simp [decodePairSeq_append (mpackDecode f) l rest hpair]
    · rw [List.append_assoc, List.cons_append, mpackDecode,
        show mHdr 0xde = .map16 from rfl]
      have hp : (256 : Nat) ^ 2 = 65536 := by norm_num
      rw [show decodeMapSized (mpackDecode f) 2
            (beBytes 2 l.length ++ (mpackEncodePairs l ++ rest)) =
          some (.dict l, rest) from by
        rw [decodeMapSized, takeLen_beBytes 2 _ _ (by omega)]
        simp [decodePairSeq_append (mpackDecode f) l rest hpair]]
    · rw [List.append_assoc, List.cons_append, mpackDecode,
        show mHdr 0xdf = .map32 from rfl]
      have hp : (256 : Nat) ^ 4 = 4294967296 := by norm_num
      rw [show decodeMapSized (mpackDecode f) 4
            (beBytes 4 l.length ++ (mpackEncodePairs l ++ rest)) =
          some (.dict l, rest) from by
        rw [decodeMapSized, takeLen_beBytes 4 _ _ (by omega)]
        simp [decodePairSeq_append (mpackDecode f) l rest hpair]]

mutual

theorem mpackDepth_le_encLen : (m : MVal) → mpackDepth m ≤ (mpackEncode m).length
  | .nil => by simp [mpackDepth, mpackEncode]
  | .bool b => by cases b <;> simp [mpackDepth, mpackEncode]
  | .int i => by
    rw [mpackDepth, mpackEncode]
    split_ifs <;> simp [beBytes_length]
  | .str s => by
    rw [mpackDepth, mpackEncode]
    split_ifs <;> simp [beBytes_length]
  | .bin b => by
    rw [mpackDepth, mpackEncode]
    split_ifs <;> simp [beBytes_length]
  | .arr l => by
    have hl := mpackDepthList_le l
    rw [mpackDepth, mpackEncode]
    split_ifs <;> simp [beBytes_length] <;> omega
  | .dict l => by
    have hl := mpackDepthPairs_le l
    rw [mpackDepth, mpackEncode]
    split_ifs <;> simp [beBytes_length] <;> omega

theorem mpackDepthList_le : (l : List MVal) →
    mpackDepthList l ≤ (mpackEncodeList l).length
  | [] => by simp [mpackDepthList, mpackEncodeList]
  | v :: rest => by
    have h1 := mpackDepth_le_encLen v
    have h2 := mpackDepthList_le rest
    rw [mpackDepthList, mpackEncodeList]
    simp only [List.length_append, max_le_iff]
    omega

theorem mpackDepthPairs_le : (l : List (MVal × MVal)) →
    mpackDepthPairs l ≤ (mpackEncodePairs l).length
  | [] => by simp [mpackDepthPairs, mpackEncodePairs]
  | (k, v) :: rest => by
    have h1 := mpackDepth_le_encLen k
    have h2 := mpackDepth_le_encLen v
    have h3 := mpackDepthPairs_le rest
    rw [mpackDepthPairs, mpackEncodePairs]
    simp only [List.length_append, max_le_iff]
    omega

end

/-- msgpack.loads inverts msgpack.dumps on well-formed subset values. -/
theorem mpackLoads_encode (m : MVal) (hwf : mpackWf m = true) :
    mpackLoads (mpackEncode m) = some m := by
  rw [mpackLoads]
  have h := mpackDecode_encode m ((mpackEncode m).length + 1) [] hwf
    (le_trans (mpackDepth_le_encLen m) (Nat.le_succ _))
  rw [List.append_nil] at h
  rw [h]

/-- `TransportPacket.serialize`: 4-byte big-endian length prefix followed
by the msgpack body (requires the body to fit the uint32 field, as
`struct.pack("!I", ...)` does). -/
def serializePacket (m : MVal) : List Nat :=
  beBytes 4 (mpackEncode m).length ++ mpackEncode m

/-- `TransportPacket.deserialize`: fewer than 4 bytes, or fewer than
`4 + length` bytes, return `(None, buffer)`; otherwise
`msgpack.loads(buffer[4:4+size])` and the residual.  A payload the codec
rejects makes `msgpack.loads` raise, modelled as `.error`. -/
def deserializePacket (buf : List Nat) : Except Unit (Option MVal × List Nat) :=
  if buf.length < 4 then .ok (none, buf)
  else
    if buf.length - 4 < fromBE (buf.take 4) then .ok (none, buf)
    else
      match mpackLoads ((buf.drop 4).take (fromBE (buf.take 4))) with
      | some v => .ok (some v, (buf.drop 4).drop (fromBE (buf.take 4)))
      | none => .error ()

theorem take_beBytes_append (w n : Nat) (l : List Nat) :
    (beBytes w n ++ l).take w = beBytes w n := by
  have h := List.take_left (beBytes w n) l
  rwa [beBytes_length] at h

theorem drop_beBytes_append (w n : Nat) (l : List Nat) :
    (beBytes w n ++ l).drop w = l := by
  have h := List.drop_left (beBytes w n) l
  rwa [beBytes_length] at h

/-- Deserializing a whole serialized packet yields the packet's map and
exactly the trailing bytes. -/
theorem deserializePacket_full (m : MVal) (extra : List Nat)
    (hwf : mpackWf m = true) (hlen : (mpackEncode m).length < 0x100000000) :
    deserializePacket (serializePacket m ++ extra) = .ok (some m, extra) := by
  rw [serializePacket, List.append_assoc, deserializePacket]
  rw [if_neg (by simp [beBytes_length])]
  rw [take_beBytes_append, fromBE_beBytes _ _ (by norm_num; omega)]
  rw [if_neg (by simp [beBytes_length])]
  rw [drop_beBytes_append]
  rw [show ((mpackEncode m ++ extra).take (mpackEncode m).length) = mpackEncode m
    from List.take_left _ _]
  rw [mpackLoads_encode m hwf]
  rw [show ((mpackEncode m ++ extra).drop (mpackEncode m).length) = extra
    from List.drop_left _ _]

/-- C3: deserializing the serialization of any map accepted by the
MessagePack subset in use (well-formed entries, body fitting the uint32
length field) yields the packet whose message is that map and an empty
residual buffer. -/
theorem C3_serialize_roundtrip (ps : List (MVal × MVal))
    (hwf : mpackWf (.dict ps) = true)
    (hlen : (mpackEncode (.dict ps)).length < 0x100000000) :
    deserializePacket (serializePacket (.dict ps)) = .ok (some (.dict ps), []) := by
  have h := deserializePacket_full (.dict ps) [] hwf hlen
  rwa [List.append_nil] at h

/-- C3 witness: the map carrying key "id" (bytes [105,100]) and value 1. -/
theorem C3_witness :
    deserializePacket (serializePacket (.dict [(.str [105, 100], .int 1)])) =
      .ok (some (.dict [(.str [105, 100], .int 1)]), []) :=
  C3_serialize_roundtrip [(.str [105, 100], .int 1)]
    (by simp [mpackWf, mpackWfPairs])
    (by simp [mpackEncode, mpackEncodePairs])

theorem deserializePacket_short (buf : List Nat) (h : buf.length < 4) :
    deserializePacket buf = .ok (none, buf) := by
  rw [deserializePacket, if_pos h]

theorem deserializePacket_partial (buf : List Nat) (h4 : 4 ≤ buf.length)
    (h : buf.length - 4 < fromBE (buf.take 4)) :
    deserializePacket buf = .ok (none, buf) := by
  rw [deserializePacket, if_neg (by omega), if_pos h]

theorem serializePacket_length (m : MVal) :
    (serializePacket m).length = 4 + (mpackEncode m).length := by
  rw [serializePacket]
  simp [beBytes_length]

/-- A strictly partial serialized packet always deserializes to
`(None, buffer)`: with fewer than 4 bytes the length field is
incomplete, otherwise the length field promises more bytes than are
buffered. -/
theorem deserializePacket_proper (m : MVal) (q z : List Nat)
    (hlen : (mpackEncode m).length < 0x100000000)
    (heq : q ++ z = serializePacket m) (hz : z ≠ []) :
    deserializePacket q = .ok (none, q) := by
  by_cases h4 : q.length < 4
  · exact deserializePacket_short q h4
  · have hql : q.length + z.length = 4 + (mpackEncode m).length := by
      have := congrArg List.length heq
      simpa [serializePacket_length] using this
    have hzpos : 0 < z.length := List.length_pos.2 hz
    have htake : q.take 4 = beBytes 4 (mpackEncode m).length := by
      have h1 : (q ++ z).take 4 = q.take 4 :=
        List.take_append_of_le_length (by omega)
      rw [heq, serializePacket] at h1
      rw [← h1, take_beBytes_append]
    apply deserializePacket_partial q (by omega)
    rw [htake, fromBE_beBytes _ _ (by norm_num; omega)]
    omega

/-- One `on_message` arrival (client.py 80-87 / server.py 93-101): the
chunk joins the buffer, `deserialize` is attempted once, at most one
packet is extracted.  (A payload the codec rejects would raise in
Python; that case is unreachable in the runs considered here.) -/
def feedChunk (st : List MVal × List Nat) (chunk : List Nat) :
    List MVal × List Nat :=
  match deserializePacket (st.2 ++ chunk) with
  | .ok (some v, rest) => (st.1 ++ [v], rest)
  | .ok (none, rest) => (st.1, rest)
  | .error _ => (st.1, st.2 ++ chunk)

/-- Feed a sequence of arrivals into a fresh connection: the packets
delivered in order, and the final accumulation buffer. -/
def feedAll (chunks : List (List Nat)) : List MVal × List Nat :=
  chunks.foldl feedChunk ([], [])

theorem feed_within (t : List Nat)
    (hnone : ∀ q, (∃ z, q ++ z = t) → deserializePacket q = .ok (none, q)) :
    ∀ (ds : List (List Nat)) (E : List MVal) (w : List Nat),
      w ++ ds.flatten = t → List.foldl feedChunk (E, w) ds = (E, t) := by
  intro ds
  induction ds with
  | nil =>
    intro E w hw
    rw [List.flatten_nil, List.append_nil] at hw
    rw [List.foldl_nil, hw]
  | cons c ds' ih =>
    intro E w hw
    rw [List.flatten_cons, ← List.append_assoc] at hw
    rw [List.foldl_cons]
    have hstep : feedChunk (E, w) c = (E, w ++ c) := by
      rw [feedChunk]
      rw [show deserializePacket (w ++ c) = .ok (none, w ++ c) from
        hnone (w ++ c) ⟨ds'.flatten, hw⟩]
    rw [hstep]
    exact ih E (w ++ c) hw

theorem feed_empties : ∀ (ds : List (List Nat)) (E : List MVal),
    ds.flatten = [] → List.foldl feedChunk (E, []) ds = (E, []) := by
  intro ds
  induction ds with
  | nil => intro E _; rfl
  | cons c ds' ih =>
    intro E hflat
    rw [List.flatten_cons] at hflat
    have hc : c = [] := by
      rcases List.append_eq_nil.1 hflat with ⟨h1, _⟩
      exact h1
    have hd : ds'.flatten = [] := by
      rcases List.append_eq_nil.1 hflat with ⟨_, h2⟩
      exact h2
    rw [List.foldl_cons, hc]
    have hstep : feedChunk (E, ([] : List Nat)) [] = (E, []) := by
      rw [feedChunk]
      rw [show deserializePacket (([] : List Nat) ++ []) = .ok (none, []) from by
        rw [List.append_nil]; exact deserializePacket_short [] (by simp)]
    rw [hstep]
    exact ih E hd

theorem feed_finish (m : MVal) (hwf : mpackWf m = true)
    (hlen : (mpackEncode m).length < 0x100000000) :
    ∀ (ds : List (List Nat)) (E : List MVal) (w : List Nat),
      w ++ ds.flatten = serializePacket m → w ≠ serializePacket m →
      List.foldl feedChunk (E, w) ds = (E ++ [m], []) := by
  intro ds
  induction ds with
  | nil =>
    intro E w hw hne
    rw [List.flatten_nil, List.append_nil] at hw
    exact absurd hw hne
  | cons c ds' ih =>
    intro E w hw hne
    rw [List.flatten_cons, ← List.append_assoc] at hw
    rw [List.foldl_cons]
    by_cases hb : w ++ c = serializePacket m
    · have hflat : ds'.flatten = [] := by
        rw [hb] at hw
        have := List.append_cancel_left
          (show serializePacket m ++ ds'.flatten =
            serializePacket m ++ [] from by rw [List.append_nil]; exact hw)
        exact this
      have hstep : feedChunk (E, w) c = (E ++ [m], []) := by
        rw [feedChunk]
        have hfull : deserializePacket (w ++ c) = .ok (some m, []) := by
          rw [hb, show serializePacket m = serializePacket m ++ [] from
            (List.append_nil _).symm]
          exact deserializePacket_full m [] hwf hlen
        rw [hfull]
      rw [hstep]
      exact feed_empties ds' (E ++ [m]) hflat
    · have hstep : feedChunk (E, w) c = (E, w ++ c) := by
        rw [feedChunk]
        have hz : ds'.flatten ≠ [] := by
          intro hc
          rw [hc, List.append_nil] at hw
          exact hb hw
        rw [deserializePacket_proper m (w ++ c) ds'.flatten hlen hw hz]
      rw [hstep]
      exact ih E (w ++ c) hw hb

theorem feed_cross (m : MVal) (hwf : mpackWf m = true)
    (hlen : (mpackEncode m).length < 0x100000000) (t : List Nat)
    (htnone : ∀ q, (∃ z, q ++ z = t) → deserializePacket q = .ok (none, q)) :
    ∀ (ds : List (List Nat)) (E : List MVal) (w : List Nat),
      w ++ ds.flatten = serializePacket m ++ t →
      w.length < (serializePacket m).length →
      List.foldl feedChunk (E, w) ds = (E ++ [m], t) := by
  intro ds
  induction ds with
  | nil =>
    intro E w hw hwlt
    rw [List.flatten_nil, List.append_nil] at hw
    have := congrArg List.length hw
    simp only [List.length_append] at this
    omega
  | cons c ds' ih =>
    intro E w hw hwlt
    rw [List.flatten_cons, ← List.append_assoc] at hw
    rw [List.foldl_cons]
    by_cases hb : (w ++ c).length < (serializePacket m).length
    · -- still strictly inside the first packet
      have h2 : (serializePacket m).take (w ++ c).length = w ++ c := by
        have h1 : ((w ++ c) ++ ds'.flatten).take (w ++ c).length = w ++ c :=
          List.take_left _ _
        rw [hw, List.take_append_of_le_length (by omega)] at h1
        exact h1
      have hpre : (w ++ c) ++ (serializePacket m).drop (w ++ c).length =
          serializePacket m := by
        have hsp := List.take_append_drop (w ++ c).length (serializePacket m)
        rw [h2] at hsp
        exact hsp
      have hzne : (serializePacket m).drop (w ++ c).length ≠ [] := by
        have hdl : ((serializePacket m).drop (w ++ c).length).length =
            (serializePacket m).length - (w ++ c).length := List.length_drop _ _
        intro hc
        rw [hc] at hdl
        simp only [List.length_nil] at hdl
        omega
      have hstep : feedChunk (E, w) c = (E, w ++ c) := by
        rw [feedChunk]
        rw [deserializePacket_proper m (w ++ c) _ hlen hpre hzne]
      rw [hstep]
      exact ih E (w ++ c) hw hb
    · -- this chunk completes the first packet
      have hts : (w ++ c).take (serializePacket m).length = serializePacket m := by
        rw [← List.take_append_of_le_length (by omega), hw, List.take_left]
      have hsplit : w ++ c = serializePacket m ++ (w ++ c).drop
          (serializePacket m).length := by
        have hsp := List.take_append_drop (serializePacket m).length (w ++ c)
        rw [hts] at hsp
        exact hsp.symm
      set w2 := (w ++ c).drop (serializePacket m).length with hw2
      have hw2t : w2 ++ ds'.flatten = t := by
        apply List.append_cancel_left
        show serializePacket m ++ (w2 ++ ds'.flatten) = serializePacket m ++ t
        rw [← List.append_assoc, ← hsplit]
        exact hw
      have hstep : feedChunk (E, w) c = (E ++ [m], w2) := by
        rw [feedChunk, hsplit]
        rw [deserializePacket_full m w2 hwf hlen]
      rw [hstep]
      exact feed_within t htnone ds' (E ++ [m]) w2 hw2t

/-- C4 counterexample input: a single arrival carrying two whole
serialized packets.  `on_message` attempts at most one decode per
arrival, so only the first packet is delivered and the second is left
sitting in the accumulation buffer, contradicting the claimed "any
byte-wise partitioning reproduces p1 then p2 with empty final residue". -/
theorem C4_counterexample :
    serializePacket (.dict []) = [0, 0, 0, 1, 0x80] ∧
    serializePacket (.dict [(.str [97], .int 2)]) =
      [0, 0, 0, 4, 0x81, 0xa1, 97, 2] ∧
    feedAll [[0, 0, 0, 1, 0x80, 0, 0, 0, 4, 0x81, 0xa1, 97, 2]] =
      ([.dict []], [0, 0, 0, 4, 0x81, 0xa1, 97, 2]) := by
  refine ⟨?_, ?_, ?_⟩
  · simp [serializePacket, mpackEncode, mpackEncodePairs, beBytes]
  · simp [serializePacket, mpackEncode, mpackEncodePairs, beBytes]
  · decide

/-- C4 (amended): with fewer than 4 buffered bytes, or fewer than
`4 + length` bytes, `deserialize` returns `(None, buffer)` unchanged;
with a complete frame whose payload the codec accepts it decodes exactly
one packet and returns the residual bytes.  Because each arrival
extracts at most one packet, a partitioning of two serialized packets is
reproduced in order with empty final residue provided the two packets
are not completed by one and the same arrival (the bytes of p2 after
the end of p1 arrive in later chunks). -/
theorem C4_streaming :
    (∀ buf : List Nat, buf.length < 4 → deserializePacket buf = .ok (none, buf)) ∧
    (∀ buf : List Nat, 4 ≤ buf.length → buf.length - 4 < fromBE (buf.take 4) →
      deserializePacket buf = .ok (none, buf)) ∧
    (∀ (m : MVal) (extra : List Nat), mpackWf m = true →
      (mpackEncode m).length < 0x100000000 →
      deserializePacket (serializePacket m ++ extra) = .ok (some m, extra)) ∧
    (∀ (m1 m2 : MVal) (cs1 cs2 : List (List Nat)) (t u : List Nat),
      mpackWf m1 = true → (mpackEncode m1).length < 0x100000000 →
      mpackWf m2 = true → (mpackEncode m2).length < 0x100000000 →
      cs1.flatten = serializePacket m1 ++ t →
      t ++ u = serializePacket m2 → u ≠ [] →
      cs2.flatten = u →
      feedAll (cs1 ++ cs2) = ([m1, m2], [])) := by
  refine ⟨deserializePacket_short, deserializePacket_partial,
    deserializePacket_full, ?_⟩
  intro m1 m2 cs1 cs2 t u hw1 hl1 hw2 hl2 hc1 htu hu hc2
  rw [feedAll, List.foldl_append]
  have htnone : ∀ q, (∃ z, q ++ z = t) → deserializePacket q = .ok (none, q) := by
    rintro q ⟨z, hz⟩
    apply deserializePacket_proper m2 q (z ++ u) hl2
    · rw [← List.append_assoc, hz, htu]
    · intro hc
      exact hu (List.append_eq_nil.1 hc).2
  have hA : List.foldl feedChunk (([], []) : List MVal × List Nat) cs1 =
      ([m1], t) := by
    have h := feed_cross m1 hw1 hl1 t htnone cs1 [] []
      (by simpa using hc1)
      (by rw [serializePacket_length]; simp)
    simpa using h
  rw [hA]
  have hB := feed_finish m2 hw2 hl2 cs2 [m1] t
    (by rw [hc2]; exact htu)
    (by
      intro hc
      have hlt := congrArg List.length htu
      rw [hc] at hlt
      simp only [List.length_append] at hlt
      have : u.length = 0 := by omega
      exact hu (List.eq_nil_of_length_eq_zero this))
  simpa using hB

/-- C4 witness: the three deserialize behaviours at concrete buffers and
a two-chunk partitioning of two empty-map packets whose boundary falls
inside the second packet's length field. -/
theorem C4_witness :
    deserializePacket [0, 0] = .ok (none, [0, 0]) ∧
    deserializePacket [0, 0, 0, 5, 1] = .ok (none, [0, 0, 0, 5, 1]) ∧
    deserializePacket (serializePacket (.dict []) ++ [7]) =
      .ok (some (.dict []), [7]) ∧
    feedAll [[0, 0, 0, 1, 0x80, 0, 0], [0, 1, 0x80]] =
      ([.dict [], .dict []], []) :=
  ⟨C4_streaming.1 [0, 0] (by decide),
   C4_streaming.2.1 [0, 0, 0, 5, 1] (by decide) (by decide),
   C4_streaming.2.2.1 (.dict []) [7] (by simp [mpackWf, mpackWfPairs])
     (by simp [mpackEncode, mpackEncodePairs]),
   C4_streaming.2.2.2 (.dict []) (.dict []) [[0, 0, 0, 1, 0x80, 0, 0]]
     [[0, 1, 0x80]] [0, 0] [0, 1, 0x80]
     (by simp [mpackWf, mpackWfPairs]) (by simp [mpackEncode, mpackEncodePairs])
     (by simp [mpackWf, mpackWfPairs]) (by simp [mpackEncode, mpackEncodePairs])
     (by simp [serializePacket, mpackEncode, mpackEncodePairs, beBytes])
     (by simp [serializePacket, mpackEncode, mpackEncodePairs, beBytes])
     (by decide) (by decide)⟩

/-!
Claim C1: the workspace-synchronisation algebra.  The client computes
`diff(local_snapshot, remote_snapshot)` (`workspace.make_diff`) and walks
the diff tree in `client.update_workspace`, emitting CREATE_DIR /
REMOVE_DIR / WRITE_FILE / REMOVE_FILE requests; the server applies them
through `workspace.Workspace.create_directory / remove_directory /
write_file / remove_file`.  A workspace state is modelled as a snapshot
node `{"dirs": {...}, "files": {...}}` (file payloads are content
hashes); WRITE_FILE carries the hash of the local file it copies, so one
`writeFile` command abstracts the fragment sequence sent by
`client.write_file`.
-/

/-- Lookup result sits inside the searched list (size bound used for
termination of the tree walks). -/
theorem alookup_sizeOf {k : String} : ∀ {es : List (String × Val)} {v : Val},
    alookup k es = some v → sizeOf v < sizeOf es := by
  intro es
  induction es with
  | nil => intro v h; simp [alookup] at h
  | cons p rest ih =>
    intro v h
    simp only [alookup] at h
    split at h
    · cases h; cases p; simp; omega
    · have := ih h
      cases p
      simp
      omega

/-- Value of a member binding is smaller than the whole list. -/
theorem mem_sizeOf_val : ∀ {l : List (String × Val)} {n : String} {v : Val},
    (n, v) ∈ l → sizeOf v < sizeOf l := by
  intro l
  induction l with
  | nil => intro n v h; simp at h
  | cons p rest ih =>
    intro n v h
    rcases List.mem_cons.1 h with h | h
    · cases h; simp; omega
    · have := ih h
      cases p
      simp
      omega

/-- The `"dirs"` sub-dict of a snapshot/diff node (`dir_tree.get("dirs", {})`
in `client.update_workspace`); empty when absent or not a dict. -/
def getDirs (v : Val) : List (String × Val) :=
  match v with
  | .map es => match alookup "dirs" es with
    | some (.map ds) => ds
    | _ => []
  | _ => []

/-- The `"files"` sub-dict of a snapshot/diff node. -/
def getFiles (v : Val) : List (String × Val) :=
  match v with
  | .map es => match alookup "files" es with
    | some (.map fs) => fs
    | _ => []
  | _ => []

/-- Snapshot node constructor: `workspace.Workspace.snapshot` always builds
`{"dirs": {...}, "files": {...}}` with exactly these two keys in this
order. -/
def mkNode (ds fs : List (String × Val)) : Val :=
  Val.map [("dirs", Val.map ds), ("files", Val.map fs)]

/-- Snapshot of an empty directory. -/
def emptyNode : Val := mkNode [] []

/-- Python dict insert-or-update: an existing key keeps its position, a new
key is appended. -/
def aset {α : Type} (k : String) (x : α) : List (String × α) → List (String × α)
  | [] => [(k, x)]
  | p :: rest => if p.1 = k then (k, x) :: rest else p :: aset k x rest

/-- Python dict key removal (first binding). -/
def aremove {α : Type} (k : String) : List (String × α) → List (String × α)
  | [] => []
  | p :: rest => if p.1 = k then rest else p :: aremove k rest

/-- Distinctness of dict keys, phrased through `alookup`. -/
def nodupKeys {α : Type} : List (String × α) → Bool
  | [] => true
  | (k, _) :: rest => (alookup k rest).isNone && nodupKeys rest

/-- The `"files"` map of a snapshot holds hex digests: strings other than
the removal sentinel `"-"` and the empty string. -/
def snapFiles : List (String × Val) → Bool
  | [] => true
  | (_, Val.str h) :: rest => h ≠ "-" && h ≠ "" && snapFiles rest
  | (_, Val.map _) :: _ => false

/-- Shape of the trees produced by `workspace.Workspace.snapshot`: a node is
`{"dirs": d, "files": f}` where `d` maps names to snapshot nodes and `f`
maps names to hex digests, with distinct keys. -/
def isSnap : Val → Bool
  | .map [(k1, .map ds), (k2, .map fs)] =>
      k1 = "dirs" && k2 = "files" && nodupKeys ds && nodupKeys fs
        && snapD ds && snapFiles fs
  | _ => false
where
  snapD : List (String × Val) → Bool
    | [] => true
    | (_, c) :: rest => isSnap c && snapD rest

/-- A node whose subtree holds at least one file. -/
def hasFileIn : Val → Bool
  | .map [(_, .map ds), (_, .map fs)] => !fs.isEmpty || anyD ds
  | _ => false
where
  anyD : List (String × Val) → Bool
    | [] => false
    | (_, c) :: rest => hasFileIn c || anyD rest

/-- Every directory of the subtree holds at least one file (transitively):
the hypothesis under which synchronisation is exact, since the protocol
materialises directories only as a side effect of `write_file`. -/
def noEmptyDirs : Val → Bool
  | .map [(_, .map ds), (_, .map _)] => goodD ds
  | _ => true
where
  goodD : List (String × Val) → Bool
    | [] => true
    | (_, c) :: rest => hasFileIn c && noEmptyDirs c && goodD rest

/-- Entry list of a dict value. -/
def vEntries : Val → List (String × Val)
  | .map es => es
  | .str _ => []

/-- Node-level `utils.diff`: `make_diff` returns
`utils.diff(local_snapshot, remote_snapshot)` as a dict. -/
def diffNode (x y : Val) : Val :=
  Val.map (diff (vEntries x) (vEntries y))

/-- Workspace commands of the claim (paths as component lists; WRITE_FILE
carries the hash of the content copied from the client's file). -/
inductive WsCmd where
  | createDir : List String → WsCmd
  | removeDir : List String → WsCmd
  | writeFile : List String → String → WsCmd
  | removeFile : List String → WsCmd
deriving Repr

/-- Path targeted by a command. -/
def cmdPath : WsCmd → List String
  | .createDir p => p
  | .removeDir p => p
  | .writeFile p _ => p
  | .removeFile p => p

/-- Re-rooting a command one directory down. -/
def shift1 (n : String) : WsCmd → WsCmd
  | .createDir p => .createDir (n :: p)
  | .removeDir p => .removeDir (n :: p)
  | .writeFile p h => .writeFile (n :: p) h
  | .removeFile p => .removeFile (n :: p)

/-- Server `create_directory`: `os.makedirs` creates every missing
component (`if not os.path.isdir: os.makedirs`). -/
def fsMkdir : Val → List String → Val
  | v, [] => v
  | v, n :: q =>
    mkNode
      (aset n
        (fsMkdir
          (match alookup n (getDirs v) with
            | some c => c
            | none => emptyNode) q)
        (getDirs v))
      (getFiles v)

/-- Server `remove_directory`: `if os.path.isdir: shutil.rmtree`; a missing
component makes it a no-op. -/
def fsRemoveDir : Val → List String → Val
  | v, [] => v
  | v, [n] => mkNode (aremove n (getDirs v)) (getFiles v)
  | v, n :: m :: q =>
    match alookup n (getDirs v) with
    | some c => mkNode (aset n (fsRemoveDir c (m :: q)) (getDirs v)) (getFiles v)
    | none => v

/-- Server `write_file`: creates the missing parent directories
(`os.makedirs` on the dirname) and stores the received content, whose
hash is the client-side hash. -/
def fsWriteFile : Val → String → List String → Val
  | v, _, [] => v
  | v, h, [n] => mkNode (getDirs v) (aset n (Val.str h) (getFiles v))
  | v, h, n :: m :: q =>
    mkNode
      (aset n
        (fsWriteFile
          (match alookup n (getDirs v) with
            | some c => c
            | none => emptyNode) h (m :: q))
        (getDirs v))
      (getFiles v)

/-- Server `remove_file`: `if os.path.isfile: os.remove`; a missing
component makes it a no-op. -/
def fsRemoveFile : Val → List String → Val
  | v, [] => v
  | v, [n] => mkNode (getDirs v) (aremove n (getFiles v))
  | v, n :: m :: q =>
    match alookup n (getDirs v) with
    | some c => mkNode (aset n (fsRemoveFile c (m :: q)) (getDirs v)) (getFiles v)
    | none => v

/-- Effect of one command on the server workspace. -/
def applyCmd (v : Val) : WsCmd → Val
  | .createDir p => fsMkdir v p
  | .removeDir p => fsRemoveDir v p
  | .writeFile p h => fsWriteFile v h p
  | .removeFile p => fsRemoveFile v p

/-- Effect of a command sequence, in order. -/
def applyCmds (v : Val) (cs : List WsCmd) : Val :=
  cs.foldl applyCmd v

/-- Hash of the file of tree `v` at a path (content read by
`client.write_file` before sending; `None` when the file is missing, in
which case nothing is sent). -/
def fileContent : Val → List String → Option String
  | _, [] => none
  | v, [n] =>
    match alookup n (getFiles v) with
    | some (.str h) => some h
    | _ => none
  | v, n :: m :: q =>
    match alookup n (getDirs v) with
    | some c => fileContent c (m :: q)
    | none => none

/-- Subtree of `v` at a directory path (`some` exactly when every component
exists as a directory). -/
def subNode : Val → List String → Option Val
  | v, [] => some v
  | v, n :: q =>
    match alookup n (getDirs v) with
    | some c => subNode c q
    | none => none

/-- Observational agreement of two workspace trees: the same directories
exist and every file path carries the same hash.  Python dicts are
insertion-ordered, so the same filesystem state reached through a
different history lists its entries in a different order; the filesystem
content is what the observations capture. -/
def obsEq (a b : Val) : Prop :=
  ∀ p : List String,
    fileContent a p = fileContent b p ∧ (subNode a p).isSome = (subNode b p).isSome

/-- Bound used by the termination of the diff-tree walk. -/
theorem getDirs_sizeOf_le (v : Val) : sizeOf (getDirs v) ≤ sizeOf v := by
  cases v with
  | str s => simp [getDirs]
  | map es =>
    unfold getDirs
    cases h : alookup "dirs" es with
    | none => simp only [h]; simp
    | some c =>
      have hlt := alookup_sizeOf h
      cases c with
      | str s => simp only [h]; simp
      | map ds => simp only [h]; simp at hlt ⊢; omega

/-- Files loop of `client.update_workspace`: `"-"` emits REMOVE_FILE,
anything else re-sends the local file (nothing when the local file has
disappeared, mirroring the `os.path.isfile` guard of `write_file`).
`set_perm` is outside the claim's command vocabulary (and see C7). -/
def wsFiles (x : Val) (root : List String) : List (String × Val) → List WsCmd
  | [] => []
  | (n, v) :: rest =>
    (if v = Val.str "-" then [WsCmd.removeFile (root ++ [n])]
     else
       match fileContent x (root ++ [n]) with
       | some h => [WsCmd.writeFile (root ++ [n]) h]
       | none => []) ++ wsFiles x root rest

mutual

/-- Dirs loop of `client.update_workspace`: a falsy payload emits
CREATE_DIR, the sentinel `"-"` emits REMOVE_DIR, any other payload
recurses one level down. -/
def wsDirs (x : Val) (root : List String) : List (String × Val) → List WsCmd
  | [] => []
  | (n, v) :: rest =>
    (if truthy v = false then [WsCmd.createDir (root ++ [n])]
     else if v = Val.str "-" then [WsCmd.removeDir (root ++ [n])]
     else updateWs x (root ++ [n]) v)
    ++ wsDirs x root rest
termination_by l => sizeOf l
decreasing_by
  all_goals simp_wf
  all_goals omega

/-- Embedding of `client.update_workspace(dir_tree, root)`: walk the dirs
loop, then the files loop; `x` is the client's local tree, read by
`write_file`. -/
def updateWs (x : Val) (root : List String) (dt : Val) : List WsCmd :=
  wsDirs x root (getDirs dt) ++ wsFiles x root (getFiles dt)
termination_by sizeOf dt + 1
decreasing_by
  simp_wf
  have := getDirs_sizeOf_le dt
  omega

end

/-- Lookup failure is absence of the key. -/
theorem alookup_eq_none_iff {α : Type} {n : String} : ∀ {l : List (String × α)},
    alookup n l = none ↔ n ∉ l.map Prod.fst := by
  intro l
  induction l with
  | nil => simp [alookup]
  | cons p rest ih =>
    simp only [alookup, List.map_cons, List.mem_cons]
    by_cases h : p.1 = n
    · simp [h]
    · have hne : ¬n = p.1 := fun he => h he.symm
      simp [h, ih, hne]

/-- Lookup success yields a member binding. -/
theorem alookup_mem {α : Type} {n : String} {v : α} : ∀ {l : List (String × α)},
    alookup n l = some v → (n, v) ∈ l := by
  intro l
  induction l with
  | nil => intro h; simp [alookup] at h
  | cons p rest ih =>
    intro h
    simp only [alookup] at h
    split at h
    · cases h
      rename_i he
      rw [← he]
      simp
    · exact List.mem_cons_of_mem _ (ih h)

/-- With distinct keys a member binding is the lookup result. -/
theorem alookup_of_mem_nodup {α : Type} {n : String} {v : α} :
    ∀ {l : List (String × α)}, nodupKeys l = true → (n, v) ∈ l →
      alookup n l = some v := by
  intro l
  induction l with
  | nil => intro _ h; simp at h
  | cons p rest ih =>
    intro hnd h
    simp only [nodupKeys, Bool.and_eq_true, Option.isNone_iff_eq_none] at hnd
    rcases List.mem_cons.1 h with h | h
    · rw [← h]
      simp [alookup]
    · have hne : p.1 ≠ n := by
        intro he
        have hmem : n ∈ rest.map Prod.fst := List.mem_map.2 ⟨(n, v), h, rfl⟩
        rw [he] at hnd
        exact (alookup_eq_none_iff.1 (by simpa using hnd.1)) hmem
      simp [alookup, hne, ih hnd.2 h]

/-- Updated key reads back the new value. -/
theorem alookup_aset_self {α : Type} {n : String} {z : α} :
    ∀ {l : List (String × α)}, alookup n (aset n z l) = some z := by
  intro l
  induction l with
  | nil => simp [aset, alookup]
  | cons p rest ih =>
    by_cases h : p.1 = n
    · simp [aset, h, alookup]
    · simp [aset, h, alookup, ih]

/-- Other keys are unaffected by an update. -/
theorem alookup_aset_ne {α : Type} {m n : String} {z : α} (hmn : m ≠ n) :
    ∀ {l : List (String × α)}, alookup m (aset n z l) = alookup m l := by
  intro l
  have hnm : ¬n = m := fun h => hmn h.symm
  induction l with
  | nil => simp [aset, alookup, hnm]
  | cons p rest ih =>
    by_cases h : p.1 = n
    · have h2 : ¬p.1 = m := by rw [h]; exact hnm
      simp [aset, h, alookup, h2, hnm]
    · by_cases h2 : p.1 = m
      · simp [aset, h, alookup, h2, hmn]
      · simp [aset, h, alookup, h2, ih]

/-- Other keys are unaffected by a removal. -/
theorem alookup_aremove_ne {α : Type} {m n : String} (hmn : m ≠ n) :
    ∀ {l : List (String × α)}, alookup m (aremove n l) = alookup m l := by
  intro l
  have hnm : ¬n = m := fun hh => hmn hh.symm
  induction l with
  | nil => simp [aremove]
  | cons p rest ih =>
    by_cases h : p.1 = n
    · have h2 : ¬p.1 = m := by rw [h]; exact hnm
      simp [aremove, h, alookup, h2, hnm]
    · by_cases h2 : p.1 = m
      · simp [aremove, h, alookup, h2, hmn]
      · simp [aremove, h, alookup, h2, ih]

/-- Removing a key of a duplicate-free dict makes it absent. -/
theorem alookup_aremove_self {α : Type} {n : String} :
    ∀ {l : List (String × α)}, nodupKeys l = true →
      alookup n (aremove n l) = none := by
  intro l
  induction l with
  | nil => intro _; simp [aremove, alookup]
  | cons p rest ih =>
    intro hnd
    simp only [nodupKeys, Bool.and_eq_true, Option.isNone_iff_eq_none] at hnd
    by_cases h : p.1 = n
    · rw [← h]
      simpa [aremove] using hnd.1
    · simp [aremove, h, alookup, ih hnd.2]

/-- Updates preserve key distinctness. -/
theorem nodupKeys_aset {α : Type} {n : String} {z : α} :
    ∀ {l : List (String × α)}, nodupKeys l = true →
      nodupKeys (aset n z l) = true := by
  intro l
  induction l with
  | nil => intro _; simp [aset, nodupKeys, alookup]
  | cons p rest ih =>
    intro hnd
    simp only [nodupKeys, Bool.and_eq_true, Option.isNone_iff_eq_none] at hnd
    by_cases h : p.1 = n
    · rw [← h]
      simp [aset, nodupKeys, hnd.1, hnd.2]
    · simp only [aset, h, if_false, nodupKeys, Bool.and_eq_true,
        Option.isNone_iff_eq_none]
      refine ⟨?_, ih hnd.2⟩
      rw [alookup_aset_ne h, hnd.1]

/-- Removals preserve key distinctness. -/
theorem nodupKeys_aremove {α : Type} {n : String} :
    ∀ {l : List (String × α)}, nodupKeys l = true →
      nodupKeys (aremove n l) = true := by
  intro l
  induction l with
  | nil => intro _; simp [aremove, nodupKeys]
  | cons p rest ih =>
    intro hnd
    simp only [nodupKeys, Bool.and_eq_true, Option.isNone_iff_eq_none] at hnd
    by_cases h : p.1 = n
    · simpa [aremove, h] using hnd.2
    · simp only [aremove, h, if_false, nodupKeys, Bool.and_eq_true,
        Option.isNone_iff_eq_none]
      refine ⟨?_, ih hnd.2⟩
      by_cases h2 : p.1 = n
      · exact absurd h2 h
      · rw [alookup_aremove_ne h2, hnd.1]

/-- Consecutive updates of one key collapse. -/
theorem aset_aset {α : Type} {n : String} {z w : α} :
    ∀ {l : List (String × α)}, aset n w (aset n z l) = aset n w l := by
  intro l
  induction l with
  | nil => simp [aset]
  | cons p rest ih =>
    by_cases h : p.1 = n
    · simp [aset, h]
    · simp [aset, h, ih]

/-- Accessor computation on a built node. -/
theorem getDirs_mkNode (ds fs : List (String × Val)) : getDirs (mkNode ds fs) = ds := by
  simp [getDirs, mkNode, alookup]

/-- Accessor computation on a built node. -/
theorem getFiles_mkNode (ds fs : List (String × Val)) : getFiles (mkNode ds fs) = fs := by
  simp [getFiles, mkNode, alookup]

/-- Entry list of a built node. -/
theorem vEntries_mkNode (ds fs : List (String × Val)) :
    vEntries (mkNode ds fs) = [("dirs", Val.map ds), ("files", Val.map fs)] := rfl

/-- Snapshot nodes are truthy: the dict always holds its two keys. -/
theorem truthy_mkNode (ds fs : List (String × Val)) : truthy (mkNode ds fs) = true := by
  simp [truthy, mkNode]

/-- Snapshot nodes are dicts, not strings. -/
theorem mkNode_ne_str (ds fs : List (String × Val)) (s : String) :
    mkNode ds fs ≠ Val.str s := by
  simp [mkNode]

/-- Characterisation of `isSnap` on a built node. -/
theorem isSnap_mkNode (ds fs : List (String × Val)) :
    isSnap (mkNode ds fs) =
      (nodupKeys ds && nodupKeys fs && isSnap.snapD ds && snapFiles fs) := by
  simp [isSnap, mkNode]

/-- Every snapshot tree is a built node. -/
theorem snap_shape {v : Val} (h : isSnap v = true) :
    ∃ ds fs, v = mkNode ds fs := by
  cases v with
  | str s => simp [isSnap] at h
  | map es =>
    rcases es with _ | ⟨⟨k1, v1⟩, es2⟩
    · simp [isSnap] at h
    rcases es2 with _ | ⟨⟨k2, v2⟩, es3⟩
    · cases v1 <;> simp [isSnap] at h
    rcases es3 with _ | ⟨p3, es4⟩
    · cases v1 with
      | str s => simp [isSnap] at h
      | map ds =>
        cases v2 with
        | str s => simp [isSnap] at h
        | map fs =>
          simp only [isSnap, Bool.and_eq_true, decide_eq_true_eq] at h
          exact ⟨ds, fs, by rw [mkNode, h.1.1.1.1.1, h.1.1.1.1.2]⟩
    · cases v1 <;> cases v2 <;> simp [isSnap] at h

/-- Characterisation of `hasFileIn` on a built node. -/
theorem hasFileIn_mkNode (ds fs : List (String × Val)) :
    hasFileIn (mkNode ds fs) = (!fs.isEmpty || hasFileIn.anyD ds) := by
  simp [hasFileIn, mkNode]

/-- Characterisation of `noEmptyDirs` on a built node. -/
theorem noEmptyDirs_mkNode (ds fs : List (String × Val)) :
    noEmptyDirs (mkNode ds fs) = noEmptyDirs.goodD ds := by
  simp [noEmptyDirs, mkNode]

/-- Members of a checked dirs map are snapshots. -/
theorem snapD_mem : ∀ {ds : List (String × Val)}, isSnap.snapD ds = true →
    ∀ {p : String × Val}, p ∈ ds → isSnap p.2 = true := by
  intro ds
  induction ds with
  | nil => intro _ p h; simp at h
  | cons q rest ih =>
    intro hs p h
    cases q with
    | mk qk qv =>
      simp only [isSnap.snapD, Bool.and_eq_true] at hs
      rcases List.mem_cons.1 h with h | h
      · rw [h]; exact hs.1
      · exact ih hs.2 h

/-- Members of a checked files map are proper digests. -/
theorem snapFiles_mem : ∀ {fs : List (String × Val)}, snapFiles fs = true →
    ∀ {p : String × Val}, p ∈ fs →
      ∃ h, p.2 = Val.str h ∧ h ≠ "-" ∧ h ≠ "" := by
  intro fs
  induction fs with
  | nil => intro _ p h; simp at h
  | cons q rest ih =>
    intro hs p h
    cases q with
    | mk qk qv =>
      cases qv with
      | map m => simp [snapFiles] at hs
      | str s =>
        simp only [snapFiles, Bool.and_eq_true, ne_eq, decide_not] at hs
        rcases List.mem_cons.1 h with h | h
        · refine ⟨s, by rw [h], ?_, ?_⟩
          · simpa using hs.1.1
          · simpa using hs.1.2
        · exact ih hs.2 h

/-- Members of a checked dirs map have files everywhere below them. -/
theorem goodD_mem : ∀ {ds : List (String × Val)}, noEmptyDirs.goodD ds = true →
    ∀ {p : String × Val}, p ∈ ds →
      hasFileIn p.2 = true ∧ noEmptyDirs p.2 = true := by
  intro ds
  induction ds with
  | nil => intro _ p h; simp at h
  | cons q rest ih =>
    intro hs p h
    cases q with
    | mk qk qv =>
      simp only [noEmptyDirs.goodD, Bool.and_eq_true] at hs
      rcases List.mem_cons.1 h with h | h
      · rw [h]; exact ⟨hs.1.1, hs.1.2⟩
      · exact ih hs.2 h

/-- The empty directory is a snapshot. -/
theorem isSnap_emptyNode : isSnap emptyNode = true := by decide

/-- Diffing against an empty dict keeps the left dict verbatim. -/
theorem diffAux_nil_right : ∀ l : List (String × Val), diffAux l [] = l := by
  intro l
  induction l with
  | nil => simp [diffAux]
  | cons p rest ih =>
    cases p with
    | mk k v => simp [diffAux, alookup, ih]

/-- Nothing is removed relative to an empty dict. -/
theorem removedKeys_nil_right (l : List (String × Val)) : removedKeys l [] = [] := rfl

/-- The diff of a dict against the empty dict is the dict itself. -/
theorem diff_nil_right (l : List (String × Val)) : diff l [] = l := by
  simp [diff, diffAux_nil_right, removedKeys_nil_right]

/-- Entries of the removal pass all carry the sentinel. -/
theorem removedKeys_values {a : List (String × Val)} :
    ∀ {b : List (String × Val)} {p : String × Val},
      p ∈ removedKeys a b → p.2 = Val.str "-" := by
  intro b
  induction b with
  | nil => intro p h; simp [removedKeys] at h
  | cons q rest ih =>
    intro p h
    simp only [removedKeys, List.filterMap_cons] at h
    split at h
    · exact ih (by simpa [removedKeys] using h)
    · rename_i heq
      split at heq
      · rcases List.mem_cons.1 h with h | h
        · cases heq; rw [h]
        · exact ih (by simpa [removedKeys] using h)
      · simp at heq

/-- Keys of the removal pass: present on the right, absent on the left. -/
theorem removedKeys_keys {a : List (String × Val)} {n : String} :
    ∀ {b : List (String × Val)},
      n ∈ (removedKeys a b).map Prod.fst ↔
        n ∈ b.map Prod.fst ∧ alookup n a = none := by
  intro b
  induction b with
  | nil => simp [removedKeys]
  | cons q rest ih =>
    by_cases hq : alookup q.1 a = none
    · have hstep : removedKeys a (q :: rest) =
          (q.1, Val.str "-") :: removedKeys a rest := by
        simp [removedKeys, List.filterMap_cons, hq]
      rw [hstep]
      simp only [List.map_cons, List.mem_cons]
      constructor
      · rintro (h | h)
        · exact ⟨Or.inl h, h ▸ hq⟩
        · have := ih.1 h
          exact ⟨Or.inr this.1, this.2⟩
      · rintro ⟨h | h, ha⟩
        · exact Or.inl h
        · exact Or.inr (ih.2 ⟨h, ha⟩)
    · have hstep : removedKeys a (q :: rest) = removedKeys a rest := by
        simp [removedKeys, List.filterMap_cons, Option.isNone_iff_eq_none, hq]
      rw [hstep]
      simp only [List.map_cons, List.mem_cons]
      constructor
      · intro h
        have := ih.1 h
        exact ⟨Or.inr this.1, this.2⟩
      · rintro ⟨h | h, ha⟩
        · rw [h] at ha
          exact absurd ha hq
        · exact ih.2 ⟨h, ha⟩

/-- Diff of two node-entry lists: the dirs diff and the files diff, each
kept only when non-empty, and no node-level removals. -/
theorem diff_node_entries (dx fx dy fy : List (String × Val)) :
    diff [("dirs", Val.map dx), ("files", Val.map fx)]
         [("dirs", Val.map dy), ("files", Val.map fy)] =
      (if (diff dx dy).isEmpty then [] else [("dirs", Val.map (diff dx dy))]) ++
      (if (diff fx fy).isEmpty then [] else [("files", Val.map (diff fx fy))]) := by
  have hrk : removedKeys [("dirs", Val.map dx), ("files", Val.map fx)]
      [("dirs", Val.map dy), ("files", Val.map fy)] = [] := by
    simp [removedKeys, alookup]
  rw [diff, hrk, List.append_nil]
  have ha1 : alookup "dirs" [("dirs", Val.map dy), ("files", Val.map fy)] =
      some (Val.map dy) := by simp [alookup]
  have ha2 : alookup "files" [("dirs", Val.map dy), ("files", Val.map fy)] =
      some (Val.map fy) := by simp [alookup]
  simp only [diffAux, ha1, ha2]
  have hdd : diffAux dx dy ++ removedKeys dx dy = diff dx dy := rfl
  have hff : diffAux fx fy ++ removedKeys fx fy = diff fx fy := rfl
  rw [hdd, hff]
  by_cases h1 : (diff dx dy).isEmpty <;> by_cases h2 : (diff fx fy).isEmpty <;>
    simp [h1, h2]

/-- Node-level diff decomposes into the dirs diff and the files diff. -/
theorem node_diff (dx fx dy fy : List (String × Val)) :
    getDirs (diffNode (mkNode dx fx) (mkNode dy fy)) = diff dx dy ∧
    getFiles (diffNode (mkNode dx fx) (mkNode dy fy)) = diff fx fy := by
  have hd := diff_node_entries dx fx dy fy
  rw [diffNode, vEntries_mkNode, vEntries_mkNode, hd]
  by_cases h1 : (diff dx dy).isEmpty <;> by_cases h2 : (diff fx fy).isEmpty <;>
    simp only [h1, h2, if_true, if_false, List.nil_append, List.append_nil] <;>
    constructor <;>
    simp [getDirs, getFiles, alookup, List.isEmpty_iff] at h1 h2 ⊢ <;>
    simp [h1, h2]


/-- Unfolding of the embedded update loop. -/
theorem updateWs_def (x : Val) (root : List String) (dt : Val) :
    updateWs x root dt = wsDirs x root (getDirs dt) ++ wsFiles x root (getFiles dt) := by
  rw [updateWs]

/-- The update loop reads only the two sub-dicts of the diff node
(`dir_tree.get("dirs", {})` / `dir_tree.get("files", {})`). -/
theorem updateWs_ext {a b : Val} (x : Val) (root : List String)
    (hd : getDirs a = getDirs b) (hf : getFiles a = getFiles b) :
    updateWs x root a = updateWs x root b := by
  rw [updateWs_def, updateWs_def, hd, hf]

/-- Dirs loop over a concatenation. -/
theorem wsDirs_append (x : Val) (root : List String) :
    ∀ a b : List (String × Val),
      wsDirs x root (a ++ b) = wsDirs x root a ++ wsDirs x root b := by
  intro a b
  induction a with
  | nil => simp [wsDirs]
  | cons p rest ih =>
    cases p with
    | mk n v => simp [wsDirs, ih]

/-- Files loop over a concatenation. -/
theorem wsFiles_append (x : Val) (root : List String) :
    ∀ a b : List (String × Val),
      wsFiles x root (a ++ b) = wsFiles x root a ++ wsFiles x root b := by
  intro a b
  induction a with
  | nil => simp [wsFiles]
  | cons p rest ih =>
    cases p with
    | mk n v => simp [wsFiles, ih]

/-- Dirs inside the mkNode wrapper are smaller than the node. -/
theorem sizeOf_lt_mkNode_dirs (ds fs : List (String × Val)) :
    sizeOf ds < sizeOf (mkNode ds fs) := by
  simp [mkNode]
  omega

/-- Files inside the mkNode wrapper are smaller than the node. -/
theorem sizeOf_lt_mkNode_files (ds fs : List (String × Val)) :
    sizeOf fs < sizeOf (mkNode ds fs) := by
  simp [mkNode]
  omega

/-- Content lookup steps through an existing directory. -/
theorem fileContent_cons {x c : Val} {n : String} (hc : alookup n (getDirs x) = some c)
    (m : String) (q : List String) :
    fileContent x (n :: m :: q) = fileContent c (m :: q) := by
  simp [fileContent, hc]

/-- Paths of the files loop extend the root by one component. -/
theorem wsFiles_paths (x : Val) (root : List String) :
    ∀ (l : List (String × Val)) (c : WsCmd), c ∈ wsFiles x root l →
      ∃ q, q ≠ ([] : List String) ∧ cmdPath c = root ++ q := by
  intro l
  induction l with
  | nil => intro c hc; simp [wsFiles] at hc
  | cons p rest ih =>
    intro c hc
    cases p with
    | mk n v =>
      simp only [wsFiles] at hc
      rcases List.mem_append.1 hc with hc | hc
      · by_cases hv : v = Val.str "-"
        · rw [if_pos hv] at hc
          simp only [List.mem_singleton] at hc
          exact ⟨[n], by simp, by simp [hc, cmdPath]⟩
        · rw [if_neg hv] at hc
          rcases hfc : fileContent x (root ++ [n]) with _ | h <;> rw [hfc] at hc
          · simp at hc
          · simp only [List.mem_singleton] at hc
            exact ⟨[n], by simp, by simp [hc, cmdPath]⟩
      · exact ih c hc

/-- Paths of the update loop extend the root by a non-empty suffix: helper
walking a dirs list whose elements stay below a size bound. -/
theorem wsDirs_paths_aux (x : Val) (B : Nat)
    (IH : ∀ (v : Val), sizeOf v < B → ∀ (root : List String) (c : WsCmd),
      c ∈ updateWs x root v → ∃ q, q ≠ ([] : List String) ∧ cmdPath c = root ++ q) :
    ∀ (l : List (String × Val)), sizeOf l ≤ B →
      ∀ (root : List String) (c : WsCmd), c ∈ wsDirs x root l →
        ∃ q, q ≠ ([] : List String) ∧ cmdPath c = root ++ q := by
  intro l
  induction l with
  | nil => intro _ root c hc; simp [wsDirs] at hc
  | cons p rest ih =>
    intro hB root c hc
    cases p with
    | mk n v =>
      have hv : sizeOf v < B := by
        have h0 : sizeOf v < sizeOf ((n, v) :: rest) := by
          simp only [List.cons.sizeOf_spec, Prod.mk.sizeOf_spec]
          omega
        omega
      have hrest : sizeOf rest ≤ B := by
        have h0 : sizeOf rest < sizeOf ((n, v) :: rest) := by
          simp only [List.cons.sizeOf_spec, Prod.mk.sizeOf_spec]
          omega
        omega
      simp only [wsDirs] at hc
      rcases List.mem_append.1 hc with hc | hc
      · by_cases h1 : truthy v = false
        · rw [if_pos h1] at hc
          simp only [List.mem_singleton] at hc
          exact ⟨[n], by simp, by simp [hc, cmdPath]⟩
        · rw [if_neg h1] at hc
          by_cases h2 : v = Val.str "-"
          · rw [if_pos h2] at hc
            simp only [List.mem_singleton] at hc
            exact ⟨[n], by simp, by simp [hc, cmdPath]⟩
          · rw [if_neg h2] at hc
            rcases IH v hv (root ++ [n]) c hc with ⟨q, hq, hpath⟩
            exact ⟨[n] ++ q, by simp, by simp [hpath]⟩
      · exact ih hrest root c hc

/-- Every command of the update walk targets a strict extension of its
root. -/
theorem updateWs_paths (dt : Val) : ∀ (x : Val) (root : List String) (c : WsCmd),
    c ∈ updateWs x root dt → ∃ q, q ≠ ([] : List String) ∧ cmdPath c = root ++ q := by
  intro x root c hc
  rw [updateWs_def] at hc
  rcases List.mem_append.1 hc with hc | hc
  · exact wsDirs_paths_aux x (sizeOf dt)
      (fun v hv root2 c2 hc2 => updateWs_paths v x root2 c2 hc2)
      (getDirs dt) (getDirs_sizeOf_le dt) root c hc
  · exact wsFiles_paths x root (getFiles dt) c hc
termination_by sizeOf dt

/-- Files loop one directory down: same commands, re-rooted.  The content
oracle moves from the whole tree to the child, matching
`client.write_file` reading the file at the full path. -/
theorem wsFiles_shift {x c : Val} {n : String} (hc : alookup n (getDirs x) = some c) :
    ∀ (r : List String) (l : List (String × Val)),
      wsFiles x (n :: r) l = (wsFiles c r l).map (shift1 n) := by
  intro r l
  induction l with
  | nil => simp [wsFiles]
  | cons p rest ih =>
    cases p with
    | mk m v =>
      have hfc : fileContent x ((n :: r) ++ [m]) = fileContent c (r ++ [m]) := by
        rcases r with _ | ⟨r0, rq⟩
        · simpa using fileContent_cons hc m []
        · simpa using fileContent_cons hc r0 (rq ++ [m])
      simp only [wsFiles, List.map_append, ih]
      congr 1
      by_cases hv : v = Val.str "-"
      · rw [if_pos hv, if_pos hv]
        simp [shift1]
      · rw [if_neg hv, if_neg hv, hfc]
        rcases fileContent c (r ++ [m]) with _ | h
        · simp
        · simp [shift1]

/-- Dirs loop one directory down, for lists below a size bound. -/
theorem wsDirs_shift_aux {x c : Val} {n : String} (hc : alookup n (getDirs x) = some c)
    (B : Nat)
    (IH : ∀ (dt : Val), sizeOf dt < B → ∀ (r : List String),
      updateWs x (n :: r) dt = (updateWs c r dt).map (shift1 n)) :
    ∀ (l : List (String × Val)), sizeOf l ≤ B → ∀ (r : List String),
      wsDirs x (n :: r) l = (wsDirs c r l).map (shift1 n) := by
  intro l
  induction l with
  | nil => intro _ r; simp [wsDirs]
  | cons p rest ih =>
    intro hB r
    cases p with
    | mk m v =>
      have hv : sizeOf v < B := by
        have h0 : sizeOf v < sizeOf ((m, v) :: rest) := by
          simp only [List.cons.sizeOf_spec, Prod.mk.sizeOf_spec]
          omega
        omega
      have hrest : sizeOf rest ≤ B := by
        have h0 : sizeOf rest < sizeOf ((m, v) :: rest) := by
          simp only [List.cons.sizeOf_spec, Prod.mk.sizeOf_spec]
          omega
        omega
      simp only [wsDirs, List.map_append]
      rw [ih hrest r]
      congr 1
      by_cases h1 : truthy v = false
      · rw [if_pos h1, if_pos h1]
        simp [shift1]
      · rw [if_neg h1, if_neg h1]
        by_cases h2 : v = Val.str "-"
        · rw [if_pos h2, if_pos h2]
          simp [shift1]
        · rw [if_neg h2, if_neg h2]
          have := IH v hv (r ++ [m])
          simpa using this

/-- Re-rooting the update walk: walking a diff tree with root `n :: r`
over the whole local tree equals walking it with root `r` over the `n`
child and prefixing every command path with `n`. -/
theorem updateWs_shift {x c : Val} {n : String} (hc : alookup n (getDirs x) = some c)
    (dt : Val) (r : List String) :
    updateWs x (n :: r) dt = (updateWs c r dt).map (shift1 n) := by
  rw [updateWs_def x, updateWs_def c, List.map_append]
  rw [wsDirs_shift_aux hc (sizeOf dt) (fun v hv r2 => updateWs_shift hc v r2)
    (getDirs dt) (getDirs_sizeOf_le dt) r]
  rw [wsFiles_shift hc r (getFiles dt)]
termination_by sizeOf dt

/-- Write commands. -/
def isWrite : WsCmd → Bool
  | .writeFile _ _ => true
  | _ => false

/-- Files loop over a snapshot files map emits only writes. -/
theorem wsFiles_writes (x : Val) (root : List String) :
    ∀ {l : List (String × Val)}, snapFiles l = true →
      ∀ {c : WsCmd}, c ∈ wsFiles x root l → isWrite c = true := by
  intro l
  induction l with
  | nil => intro _ c hc; simp [wsFiles] at hc
  | cons p rest ih =>
    intro hs c hc
    cases p with
    | mk m v =>
      cases v with
      | map w => simp [snapFiles] at hs
      | str h =>
        simp only [snapFiles, Bool.and_eq_true, ne_eq, decide_not] at hs
        have hvne : Val.str h ≠ Val.str "-" := by
          intro he
          cases he
          simp at hs
        simp only [wsFiles] at hc
        rcases List.mem_append.1 hc with hc | hc
        · rw [if_neg hvne] at hc
          rcases hfc : fileContent x (root ++ [m]) with _ | w <;> rw [hfc] at hc
          · simp at hc
          · simp only [List.mem_singleton] at hc
            rw [hc]
            rfl
        · exact ih hs.2 hc

/-- Dirs loop over a snapshot dirs map emits only writes (no snapshot
payload is falsy or the sentinel, so every branch recurses). -/
theorem wsDirs_writes_aux (x : Val) (B : Nat)
    (IH : ∀ (v : Val), sizeOf v < B → isSnap v = true →
      ∀ (root : List String) (c : WsCmd), c ∈ updateWs x root v → isWrite c = true) :
    ∀ (l : List (String × Val)), sizeOf l ≤ B → isSnap.snapD l = true →
      ∀ (root : List String) (c : WsCmd), c ∈ wsDirs x root l →
        isWrite c = true := by
  intro l
  induction l with
  | nil => intro _ _ root c hc; simp [wsDirs] at hc
  | cons p rest ih =>
    intro hB hsl root c hc
    cases p with
    | mk m v =>
      have hv : sizeOf v < B := by
        have h0 : sizeOf v < sizeOf ((m, v) :: rest) := by
          simp only [List.cons.sizeOf_spec, Prod.mk.sizeOf_spec]
          omega
        omega
      have hrest : sizeOf rest ≤ B := by
        have h0 : sizeOf rest < sizeOf ((m, v) :: rest) := by
          simp only [List.cons.sizeOf_spec, Prod.mk.sizeOf_spec]
          omega
        omega
      simp only [isSnap.snapD, Bool.and_eq_true] at hsl
      obtain ⟨ds, fs, hvshape⟩ := snap_shape hsl.1
      simp only [wsDirs] at hc
      rcases List.mem_append.1 hc with hc | hc
      · have h1 : ¬truthy v = false := by
          rw [hvshape, truthy_mkNode]
          simp
        have h2 : v ≠ Val.str "-" := by
          rw [hvshape]
          exact mkNode_ne_str ds fs "-"
        rw [if_neg h1, if_neg h2] at hc
        exact IH v hv hsl.1 (root ++ [m]) c hc
      · exact ih hrest hsl.2 root c hc

/-- Every command of the update walk over a verbatim snapshot subtree is a
WRITE_FILE: only-in-local subtrees are synchronised purely by file
writes. -/
theorem updateWs_writes (dt : Val) : isSnap dt = true →
    ∀ (x : Val) (root : List String) (c : WsCmd),
      c ∈ updateWs x root dt → isWrite c = true := by
  intro hs x root c hc
  obtain ⟨ds, fs, rfl⟩ := snap_shape hs
  rw [isSnap_mkNode] at hs
  simp only [Bool.and_eq_true] at hs
  rw [updateWs_def, getDirs_mkNode, getFiles_mkNode] at hc
  rcases List.mem_append.1 hc with hc | hc
  · exact wsDirs_writes_aux x (sizeOf (mkNode ds fs))
      (fun v hv hsv root2 c2 hc2 => updateWs_writes v hsv x root2 c2 hc2)
      ds (le_of_lt (sizeOf_lt_mkNode_dirs ds fs)) hs.1.2 root c hc
  · exact wsFiles_writes x root hs.2 hc
termination_by sizeOf dt

/-- Values have positive size. -/
theorem one_le_sizeOf_val (v : Val) : 1 ≤ sizeOf v := by
  cases v <;> simp

/-- Walking a snapshot subtree that holds at least one file (everywhere)
emits at least one command, stated with an explicit size bound for the
induction. -/
theorem updateWs_self_ne_aux : ∀ (N : Nat) (c : Val), sizeOf c ≤ N →
    isSnap c = true → noEmptyDirs c = true → hasFileIn c = true →
    updateWs c [] c ≠ [] := by
  intro N
  induction N with
  | zero =>
    intro c hcN
    have := one_le_sizeOf_val c
    omega
  | succ N ihN =>
    intro c hcN hs hnd hf
    obtain ⟨ds, fs, rfl⟩ := snap_shape hs
    rw [isSnap_mkNode] at hs
    simp only [Bool.and_eq_true] at hs
    rw [noEmptyDirs_mkNode] at hnd
    rw [hasFileIn_mkNode] at hf
    rw [updateWs_def, getDirs_mkNode, getFiles_mkNode]
    rcases fs with _ | ⟨⟨m, w⟩, fs2⟩
    · have hds : hasFileIn.anyD ds = true := by simpa using hf
      rcases ds with _ | ⟨⟨m0, c0⟩, ds2⟩
      · simp [hasFileIn.anyD] at hds
      · have hgd : noEmptyDirs.goodD ((m0, c0) :: ds2) = true := hnd
        simp only [noEmptyDirs.goodD, Bool.and_eq_true] at hgd
        have hsd : isSnap.snapD ((m0, c0) :: ds2) = true := hs.1.2
        simp only [isSnap.snapD, Bool.and_eq_true] at hsd
        obtain ⟨dc, fc, hc0⟩ := snap_shape hsd.1
        have h1 : ¬truthy c0 = false := by
          rw [hc0, truthy_mkNode]
          simp
        have h2 : c0 ≠ Val.str "-" := by
          rw [hc0]
          exact mkNode_ne_str dc fc "-"
        have hlook : alookup m0
            (getDirs (mkNode ((m0, c0) :: ds2) [])) = some c0 := by
          rw [getDirs_mkNode]
          simp [alookup]
        have hsize : sizeOf c0 ≤ N := by
          have hm : (m0, c0) ∈ (m0, c0) :: ds2 := by simp
          have h1s := mem_sizeOf_val hm
          have h2s := sizeOf_lt_mkNode_dirs ((m0, c0) :: ds2) []
          omega
        have hrec : updateWs c0 [] c0 ≠ [] :=
          ihN c0 hsize hsd.1 hgd.1.2 hgd.1.1
        intro hcontra
        rw [List.append_eq_nil] at hcontra
        have hd0 := hcontra.1
        simp only [wsDirs] at hd0
        rw [if_neg h1, if_neg h2] at hd0
        rw [List.append_eq_nil] at hd0
        have hmain := hd0.1
        rw [show ([] : List String) ++ [m0] = [m0] from rfl] at hmain
        rw [updateWs_shift hlook c0 []] at hmain
        exact hrec (List.map_eq_nil_iff.1 hmain)
    · have hsf : snapFiles ((m, w) :: fs2) = true := hs.2
      cases w with
      | map w2 => simp [snapFiles] at hsf
      | str h =>
        simp only [snapFiles, Bool.and_eq_true, ne_eq, decide_not] at hsf
        have hvne : Val.str h ≠ Val.str "-" := by
          intro he
          cases he
          simp at hsf
        have hfc : fileContent (mkNode ds ((m, Val.str h) :: fs2)) ([] ++ [m]) =
            some h := by
          simp [fileContent, getFiles_mkNode, alookup]
        intro hcontra
        rw [List.append_eq_nil] at hcontra
        have hf0 := hcontra.2
        simp only [wsFiles] at hf0
        rw [if_neg hvne, hfc] at hf0
        simp at hf0

/-- Walking a snapshot subtree that holds at least one file (everywhere)
emits at least one command: the file-write that materialises it. -/
theorem updateWs_self_ne (c : Val) (hs : isSnap c = true) (hnd : noEmptyDirs c = true)
    (hf : hasFileIn c = true) : updateWs c [] c ≠ [] :=
  updateWs_self_ne_aux (sizeOf c) c le_rfl hs hnd hf

/-- Re-updating a key with its current value is the identity. -/
theorem aset_lookup_self {ch : Val} {n : String} :
    ∀ {l : List (String × Val)}, alookup n l = some ch → aset n ch l = l := by
  intro l
  induction l with
  | nil => intro h; simp [alookup] at h
  | cons p rest ih =>
    intro h
    cases p with
    | mk k v =>
      simp only [alookup] at h
      by_cases hk : k = n
      · rw [if_pos hk] at h
        cases h
        simp [aset, hk]
      · rw [if_neg hk] at h
        simp [aset, hk, ih h]

/-- Single-component REMOVE_DIR on a node. -/
theorem fsRemoveDir_single (d f : List (String × Val)) (n : String) :
    fsRemoveDir (mkNode d f) [n] = mkNode (aremove n d) f := by
  simp [fsRemoveDir, getDirs_mkNode, getFiles_mkNode]

/-- Single-component REMOVE_FILE on a node. -/
theorem fsRemoveFile_single (d f : List (String × Val)) (n : String) :
    fsRemoveFile (mkNode d f) [n] = mkNode d (aremove n f) := by
  simp [fsRemoveFile, getDirs_mkNode, getFiles_mkNode]

/-- Single-component WRITE_FILE on a node. -/
theorem fsWriteFile_single (d f : List (String × Val)) (n h : String) :
    fsWriteFile (mkNode d f) h [n] = mkNode d (aset n (Val.str h) f) := by
  simp [fsWriteFile, getDirs_mkNode, getFiles_mkNode]

/-- Effect of a re-rooted command when the target child directory exists:
the command edits the child in place. -/
theorem applyCmd_shift1_present {S ch : Val} {n : String}
    (hch : alookup n (getDirs S) = some ch) :
    ∀ {c : WsCmd}, cmdPath c ≠ [] →
      applyCmd S (shift1 n c) =
        mkNode (aset n (applyCmd ch c) (getDirs S)) (getFiles S) := by
  intro c hp
  cases c with
  | createDir p =>
    rcases p with _ | ⟨m, p2⟩
    · simp [cmdPath] at hp
    · simp only [applyCmd, shift1, fsMkdir, hch]
  | removeDir p =>
    rcases p with _ | ⟨m, p2⟩
    · simp [cmdPath] at hp
    · simp only [applyCmd, shift1, fsRemoveDir, hch]
  | writeFile p h =>
    rcases p with _ | ⟨m, p2⟩
    · simp [cmdPath] at hp
    · simp only [applyCmd, shift1, fsWriteFile, hch]
  | removeFile p =>
    rcases p with _ | ⟨m, p2⟩
    · simp [cmdPath] at hp
    · simp only [applyCmd, shift1, fsRemoveFile, hch]

/-- Effect of a re-rooted write when the target child directory is
missing: the parents are created from the empty directory. -/
theorem applyCmd_shift1_absent {S : Val} {n : String}
    (hch : alookup n (getDirs S) = none) :
    ∀ {c : WsCmd}, isWrite c = true → cmdPath c ≠ [] →
      applyCmd S (shift1 n c) =
        mkNode (aset n (applyCmd emptyNode c) (getDirs S)) (getFiles S) := by
  intro c hw hp
  cases c with
  | createDir p => simp [isWrite] at hw
  | removeDir p => simp [isWrite] at hw
  | removeFile p => simp [isWrite] at hw
  | writeFile p h =>
    rcases p with _ | ⟨m, p2⟩
    · simp [cmdPath] at hp
    · simp only [applyCmd, shift1, fsWriteFile, hch]

/-- One step of the command fold. -/
theorem applyCmds_cons (v : Val) (c : WsCmd) (cs : List WsCmd) :
    applyCmds v (c :: cs) = applyCmds (applyCmd v c) cs := rfl

/-- Folding re-rooted commands over an existing child directory edits the
child in place. -/
theorem applyCmds_shift_present :
    ∀ (cs : List WsCmd) (d f : List (String × Val)) (ch : Val) (n : String),
      alookup n d = some ch →
      (∀ c ∈ cs, cmdPath c ≠ []) →
      applyCmds (mkNode d f) (cs.map (shift1 n)) =
        mkNode (aset n (applyCmds ch cs) d) f := by
  intro cs
  induction cs with
  | nil =>
    intro d f ch n hch _
    simp [applyCmds, aset_lookup_self hch]
  | cons c0 cs2 ih =>
    intro d f ch n hch hp
    have hstep : applyCmd (mkNode d f) (shift1 n c0) =
        mkNode (aset n (applyCmd ch c0) d) f := by
      have := @applyCmd_shift1_present (mkNode d f) ch n
        (by rw [getDirs_mkNode]; exact hch) c0 (hp c0 (by simp))
      rwa [getDirs_mkNode, getFiles_mkNode] at this
    rw [List.map_cons, applyCmds_cons, hstep]
    rw [ih (aset n (applyCmd ch c0) d) f (applyCmd ch c0) n alookup_aset_self
      (fun c hc => hp c (by simp [hc]))]
    rw [aset_aset, applyCmds_cons]

/-- Folding re-rooted writes over a missing child directory materialises
it from the empty directory. -/
theorem applyCmds_shift_absent :
    ∀ (cs : List WsCmd) (d f : List (String × Val)) (n : String),
      alookup n d = none → cs ≠ [] →
      (∀ c ∈ cs, cmdPath c ≠ []) → (∀ c ∈ cs, isWrite c = true) →
      applyCmds (mkNode d f) (cs.map (shift1 n)) =
        mkNode (aset n (applyCmds emptyNode cs) d) f := by
  intro cs
  induction cs with
  | nil => intro d f n _ hne; exact absurd rfl hne
  | cons c0 cs2 _ =>
    intro d f n hch _ hp hw
    have hstep : applyCmd (mkNode d f) (shift1 n c0) =
        mkNode (aset n (applyCmd emptyNode c0) d) f := by
      have := @applyCmd_shift1_absent (mkNode d f) n
        (by rw [getDirs_mkNode]; exact hch) c0 (hw c0 (by simp)) (hp c0 (by simp))
      rwa [getDirs_mkNode, getFiles_mkNode] at this
    rw [List.map_cons, applyCmds_cons, hstep]
    rw [applyCmds_shift_present cs2 (aset n (applyCmd emptyNode c0) d) f
      (applyCmd emptyNode c0) n alookup_aset_self
      (fun c hc => hp c (by simp [hc]))]
    rw [aset_aset, applyCmds_cons]

/-- The command fold splits over concatenation. -/
theorem applyCmds_append (v : Val) (a b : List WsCmd) :
    applyCmds v (a ++ b) = applyCmds (applyCmds v a) b := by
  simp [applyCmds, List.foldl_append]

/-- Dirs loop over removal entries: every listed key is deleted from the
dirs map, nothing else changes. -/
theorem dirs_remove_fold (x : Val) :
    ∀ (R d f : List (String × Val)),
      (∀ p ∈ R, p.2 = Val.str "-") → nodupKeys d = true →
      ∃ d2, applyCmds (mkNode d f) (wsDirs x [] R) = mkNode d2 f ∧
        nodupKeys d2 = true ∧
        ∀ m, alookup m d2 =
          if m ∈ R.map Prod.fst then none else alookup m d := by
  intro R
  induction R with
  | nil =>
    intro d f _ hnd
    refine ⟨d, by simp [wsDirs, applyCmds], hnd, ?_⟩
    intro m
    simp
  | cons p R2 ih =>
    intro d f hR hnd
    cases p with
    | mk n v =>
      have hv : v = Val.str "-" := hR (n, v) (by simp)
      have ht : ¬truthy v = false := by
        rw [hv]
        simp [truthy]
      simp only [wsDirs]
      rw [if_neg ht, if_pos hv]
      rw [show ([] : List String) ++ [n] = [n] from rfl]
      rw [List.singleton_append, applyCmds_cons]
      have hone : applyCmd (mkNode d f) (WsCmd.removeDir [n]) =
          mkNode (aremove n d) f := fsRemoveDir_single d f n
      rw [hone]
      obtain ⟨d2, heq, hnd2, hchar⟩ := ih (aremove n d) f
        (fun q hq => hR q (by simp [hq])) (nodupKeys_aremove hnd)
      refine ⟨d2, heq, hnd2, ?_⟩
      intro m
      rw [hchar m]
      by_cases hm : m ∈ R2.map Prod.fst
      · simp [hm]
      · by_cases hmn : m = n
        · subst hmn
          simp [hm, alookup_aremove_self hnd]
        · simp [hm, hmn, alookup_aremove_ne hmn]

/-- Files loop over removal entries: every listed key is deleted from the
files map, nothing else changes. -/
theorem files_remove_fold (x : Val) :
    ∀ (R d f : List (String × Val)),
      (∀ p ∈ R, p.2 = Val.str "-") → nodupKeys f = true →
      ∃ f2, applyCmds (mkNode d f) (wsFiles x [] R) = mkNode d f2 ∧
        nodupKeys f2 = true ∧
        ∀ m, alookup m f2 =
          if m ∈ R.map Prod.fst then none else alookup m f := by
  intro R
  induction R with
  | nil =>
    intro d f _ hnd
    refine ⟨f, by simp [wsFiles, applyCmds], hnd, ?_⟩
    intro m
    simp
  | cons p R2 ih =>
    intro d f hR hnd
    cases p with
    | mk n v =>
      have hv : v = Val.str "-" := hR (n, v) (by simp)
      simp only [wsFiles]
      rw [if_pos hv]
      rw [show ([] : List String) ++ [n] = [n] from rfl]
      rw [List.singleton_append, applyCmds_cons]
      have hone : applyCmd (mkNode d f) (WsCmd.removeFile [n]) =
          mkNode d (aremove n f) := fsRemoveFile_single d f n
      rw [hone]
      obtain ⟨f2, heq, hnd2, hchar⟩ := ih d (aremove n f)
        (fun q hq => hR q (by simp [hq])) (nodupKeys_aremove hnd)
      refine ⟨f2, heq, hnd2, ?_⟩
      intro m
      rw [hchar m]
      by_cases hm : m ∈ R2.map Prod.fst
      · simp [hm]
      · by_cases hmn : m = n
        · subst hmn
          simp [hm, alookup_aremove_self hnd]
        · simp [hm, hmn, alookup_aremove_ne hmn]

/-- Files phase over the first diff loop: after the walk, every file of
the local map carries its local hash, and files outside the walked keys
are untouched. -/
theorem phase2a (x : Val) :
    ∀ (fxT fy d f : List (String × Val)),
      nodupKeys fxT = true →
      (∀ p ∈ fxT, alookup p.1 (getFiles x) = some p.2 ∧
        ∃ h, p.2 = Val.str h ∧ h ≠ "-" ∧ h ≠ "") →
      (∀ n, n ∈ fxT.map Prod.fst → alookup n f = alookup n fy) →
      nodupKeys f = true →
      ∃ f2, applyCmds (mkNode d f) (wsFiles x [] (diffAux fxT fy)) = mkNode d f2 ∧
        nodupKeys f2 = true ∧
        (∀ n, n ∉ fxT.map Prod.fst → alookup n f2 = alookup n f) ∧
        (∀ p ∈ fxT, alookup p.1 f2 = some p.2) := by
  intro fxT
  induction fxT with
  | nil =>
    intro fy d f _ _ _ hndf
    refine ⟨f, by simp [diffAux, wsFiles, applyCmds], hndf, fun n _ => rfl, by simp⟩
  | cons p T ih =>
    intro fy d f hnd horacle hagree hndf
    cases p with
    | mk n v =>
      obtain ⟨hlook, h, hv, hne1, hne2⟩ := horacle (n, v) (by simp)
      subst hv
      simp only [nodupKeys, Bool.and_eq_true, Option.isNone_iff_eq_none] at hnd
      have hnotT : n ∉ T.map Prod.fst := alookup_eq_none_iff.1 hnd.1
      have horacleT : ∀ p ∈ T, alookup p.1 (getFiles x) = some p.2 ∧
          ∃ h, p.2 = Val.str h ∧ h ≠ "-" ∧ h ≠ "" :=
        fun q hq => horacle q (by simp [hq])
      have hvne : Val.str h ≠ Val.str "-" := by
        intro he
        cases he
        exact hne1 rfl
      have hfcx : fileContent x [n] = some h := by
        simp only [fileContent, hlook]
      cases hfy : alookup n fy with
      | none =>
        have hstep : diffAux ((n, Val.str h) :: T) fy =
            (n, Val.str h) :: diffAux T fy := by
          simp only [diffAux, hfy]
        rw [hstep]
        simp only [wsFiles]
        rw [if_neg hvne]
        rw [show ([] : List String) ++ [n] = [n] from rfl]
        rw [hfcx]
        rw [List.singleton_append, applyCmds_cons]
        rw [show applyCmd (mkNode d f) (WsCmd.writeFile [n] h) =
          mkNode d (aset n (Val.str h) f) from fsWriteFile_single d f n h]
        have hagreeT : ∀ m, m ∈ T.map Prod.fst →
            alookup m (aset n (Val.str h) f) = alookup m fy := by
          intro m hm
          have hmn : m ≠ n := fun he => hnotT (he ▸ hm)
          rw [alookup_aset_ne hmn]
          exact hagree m (by simp [hm])
        obtain ⟨f2, heq, hnd2, hframe, hmem⟩ := ih fy d (aset n (Val.str h) f)
          hnd.2 horacleT hagreeT (nodupKeys_aset hndf)
        refine ⟨f2, heq, hnd2, ?_, ?_⟩
        · intro m hm
          simp only [List.map_cons, List.mem_cons, not_or] at hm
          rw [hframe m hm.2, alookup_aset_ne hm.1]
        · intro q hq
          rcases List.mem_cons.1 hq with hq | hq
          · rw [hq]
            rw [hframe n hnotT, alookup_aset_self]
          · exact hmem q hq
      | some v2 =>
        by_cases hveq : Val.str h = v2
        · have hstep : diffAux ((n, Val.str h) :: T) fy = diffAux T fy := by
            simp only [diffAux, hfy]
            rw [if_neg]
            intro hcontra
            exact hcontra.1 hveq
          rw [hstep]
          obtain ⟨f2, heq, hnd2, hframe, hmem⟩ := ih fy d f
            hnd.2 horacleT (fun m hm => hagree m (by simp [hm])) hndf
          refine ⟨f2, heq, hnd2, ?_, ?_⟩
          · intro m hm
            simp only [List.map_cons, List.mem_cons, not_or] at hm
            exact hframe m hm.2
          · intro q hq
            rcases List.mem_cons.1 hq with hq | hq
            · rw [hq]
              rw [hframe n hnotT]
              rw [hagree n (by simp), hfy, ← hveq]
            · exact hmem q hq
        · have htr : truthy (Val.str h) = true := by
            simp [truthy, hne2]
          have hstep : diffAux ((n, Val.str h) :: T) fy =
              (n, Val.str h) :: diffAux T fy := by
            simp only [diffAux, hfy]
            rw [if_pos]
            exact ⟨hveq, by rw [htr]⟩
          rw [hstep]
          simp only [wsFiles]
          rw [if_neg hvne]
          rw [show ([] : List String) ++ [n] = [n] from rfl]
          rw [hfcx]
          rw [List.singleton_append, applyCmds_cons]
          rw [show applyCmd (mkNode d f) (WsCmd.writeFile [n] h) =
            mkNode d (aset n (Val.str h) f) from fsWriteFile_single d f n h]
          have hagreeT : ∀ m, m ∈ T.map Prod.fst →
              alookup m (aset n (Val.str h) f) = alookup m fy := by
            intro m hm
            have hmn : m ≠ n := fun he => hnotT (he ▸ hm)
            rw [alookup_aset_ne hmn]
            exact hagree m (by simp [hm])
          obtain ⟨f2, heq, hnd2, hframe, hmem⟩ := ih fy d (aset n (Val.str h) f)
            hnd.2 horacleT hagreeT (nodupKeys_aset hndf)
          refine ⟨f2, heq, hnd2, ?_, ?_⟩
          · intro m hm
            simp only [List.map_cons, List.mem_cons, not_or] at hm
            rw [hframe m hm.2, alookup_aset_ne hm.1]
          · intro q hq
            rcases List.mem_cons.1 hq with hq | hq
            · rw [hq]
              rw [hframe n hnotT, alookup_aset_self]
            · exact hmem q hq

/-- First diff loop, key absent on the right: the left payload is carried
verbatim. -/
theorem diffAux_cons_absent {n : String} {v : Val} {T d2 : List (String × Val)}
    (hny : alookup n d2 = none) :
    diffAux ((n, v) :: T) d2 = (n, v) :: diffAux T d2 := by
  simp only [diffAux, hny]

/-- First diff loop, both payloads dicts: recurse and keep the sub-diff
only when non-empty. -/
theorem diffAux_cons_mapmap {n : String} {m1 m2 T d2 : List (String × Val)}
    (hny : alookup n d2 = some (Val.map m2)) :
    diffAux ((n, Val.map m1) :: T) d2 =
      if (diff m1 m2).isEmpty then diffAux T d2
      else (n, Val.map (diff m1 m2)) :: diffAux T d2 := by
  simp only [diffAux, hny]
  have hfold : diffAux m1 m2 ++ removedKeys m1 m2 = diff m1 m2 := rfl
  rw [hfold]

/-- Walking an empty diff dict emits nothing. -/
theorem updateWs_nil (x : Val) (r : List String) : updateWs x r (Val.map []) = [] := by
  rw [updateWs_def]
  simp [getDirs, getFiles, alookup, wsDirs, wsFiles]

/-- Walking a verbatim snapshot subtree is walking its diff against the
empty directory: the diff drops the `"dirs"`/`"files"` keys exactly when
their maps are empty, and the walk reads them back as empty. -/
theorem updateWs_self_diff (c : Val) (hs : isSnap c = true) (x : Val)
    (r : List String) :
    updateWs x r (diffNode c emptyNode) = updateWs x r c := by
  obtain ⟨dc, fc, rfl⟩ := snap_shape hs
  apply updateWs_ext
  · rw [show emptyNode = mkNode [] [] from rfl, (node_diff dc fc [] []).1,
      diff_nil_right, getDirs_mkNode]
  · rw [show emptyNode = mkNode [] [] from rfl, (node_diff dc fc [] []).2,
      diff_nil_right, getFiles_mkNode]

/-- Dirs phase over the first diff loop: after the walk every local dir
child is installed up to observation, and keys outside the walked local
map are untouched. -/
theorem phase1a (x : Val) (B : Nat)
    (IH : ∀ (c y2 : Val), sizeOf c < B → isSnap c = true → isSnap y2 = true →
      noEmptyDirs c = true →
      obsEq (applyCmds y2 (updateWs c [] (diffNode c y2))) c)
    (dy : List (String × Val)) (hdy : ∀ p ∈ dy, isSnap p.2 = true) :
    ∀ (dxT d f : List (String × Val)),
      nodupKeys dxT = true →
      (∀ p ∈ dxT, alookup p.1 (getDirs x) = some p.2 ∧ isSnap p.2 = true ∧
        hasFileIn p.2 = true ∧ noEmptyDirs p.2 = true ∧ sizeOf p.2 < B) →
      (∀ n, n ∈ dxT.map Prod.fst → alookup n d = alookup n dy) →
      nodupKeys d = true →
      ∃ d2, applyCmds (mkNode d f) (wsDirs x [] (diffAux dxT dy)) = mkNode d2 f ∧
        nodupKeys d2 = true ∧
        (∀ n, n ∉ dxT.map Prod.fst → alookup n d2 = alookup n d) ∧
        (∀ p ∈ dxT, ∃ z, alookup p.1 d2 = some z ∧ obsEq z p.2) := by
  intro dxT
  induction dxT with
  | nil =>
    intro d f _ _ _ hndd
    refine ⟨d, by simp [diffAux, wsDirs, applyCmds], hndd, fun n _ => rfl, by simp⟩
  | cons p T ih =>
    intro d f hnd horacle hagree hndd
    cases p with
    | mk n c =>
      obtain ⟨hlook, hsc, hfc, hnec, hsize⟩ := horacle (n, c) (by simp)
      simp only [nodupKeys, Bool.and_eq_true, Option.isNone_iff_eq_none] at hnd
      have hnotT : n ∉ T.map Prod.fst := alookup_eq_none_iff.1 hnd.1
      have horacleT : ∀ p ∈ T, alookup p.1 (getDirs x) = some p.2 ∧
          isSnap p.2 = true ∧ hasFileIn p.2 = true ∧ noEmptyDirs p.2 = true ∧
          sizeOf p.2 < B :=
        fun q hq => horacle q (by simp [hq])
      obtain ⟨dc, fc, rfl⟩ := snap_shape hsc
      have h1 : ¬truthy (mkNode dc fc) = false := by
        rw [truthy_mkNode]
        simp
      have h2 : mkNode dc fc ≠ Val.str "-" := mkNode_ne_str dc fc "-"
      cases hny : alookup n dy with
      | none =>
        rw [diffAux_cons_absent hny]
        simp only [wsDirs]
        rw [if_neg h1, if_neg h2]
        rw [show ([] : List String) ++ [n] = [n] from rfl]
        rw [updateWs_shift hlook (mkNode dc fc) []]
        rw [applyCmds_append]
        have habs : alookup n d = none := by
          rw [hagree n (by simp), hny]
        have hcsne : updateWs (mkNode dc fc) [] (mkNode dc fc) ≠ [] :=
          updateWs_self_ne (mkNode dc fc) hsc hnec hfc
        have hpaths : ∀ cmd ∈ updateWs (mkNode dc fc) [] (mkNode dc fc),
            cmdPath cmd ≠ [] := by
          intro cmd hcmd
          obtain ⟨q, hq, hpath⟩ := updateWs_paths (mkNode dc fc) (mkNode dc fc)
            [] cmd hcmd
          rw [hpath]
          simpa using hq
        have hwrites : ∀ cmd ∈ updateWs (mkNode dc fc) [] (mkNode dc fc),
            isWrite cmd = true :=
          fun cmd hcmd => updateWs_writes (mkNode dc fc) hsc (mkNode dc fc)
            [] cmd hcmd
        rw [applyCmds_shift_absent (updateWs (mkNode dc fc) [] (mkNode dc fc))
          d f n habs hcsne hpaths hwrites]
        set z := applyCmds emptyNode (updateWs (mkNode dc fc) [] (mkNode dc fc))
          with hzdef
        have hz : obsEq z (mkNode dc fc) := by
          have hmain := IH (mkNode dc fc) emptyNode hsize hsc isSnap_emptyNode hnec
          rwa [updateWs_self_diff (mkNode dc fc) hsc (mkNode dc fc) []] at hmain
        have hagreeT : ∀ m, m ∈ T.map Prod.fst →
            alookup m (aset n z d) = alookup m dy := by
          intro m hm
          have hmn : m ≠ n := fun he => hnotT (he ▸ hm)
          rw [alookup_aset_ne hmn]
          exact hagree m (by simp [hm])
        obtain ⟨d2, heq, hnd2, hframe, hmem⟩ := ih (aset n z d) f
          hnd.2 horacleT hagreeT (nodupKeys_aset hndd)
        refine ⟨d2, heq, hnd2, ?_, ?_⟩
        · intro m hm
          simp only [List.map_cons, List.mem_cons, not_or] at hm
          rw [hframe m hm.2, alookup_aset_ne hm.1]
        · intro q hq
          rcases List.mem_cons.1 hq with hq | hq
          · rw [hq]
            refine ⟨z, ?_, hz⟩
            rw [hframe n hnotT, alookup_aset_self]
          · exact hmem q hq
      | some cy =>
        have hscy : isSnap cy = true := hdy (n, cy) (alookup_mem hny)
        obtain ⟨dcy, fcy, rfl⟩ := snap_shape hscy
        have hstep : diffAux ((n, mkNode dc fc) :: T) dy =
            if (diff (vEntries (mkNode dc fc)) (vEntries (mkNode dcy fcy))).isEmpty
            then diffAux T dy
            else (n, diffNode (mkNode dc fc) (mkNode dcy fcy)) :: diffAux T dy :=
          diffAux_cons_mapmap hny
        rw [hstep]
        by_cases hre : (diff (vEntries (mkNode dc fc))
            (vEntries (mkNode dcy fcy))).isEmpty = true
        · rw [if_pos hre]
          have hobs : obsEq (mkNode dcy fcy) (mkNode dc fc) := by
            have hmain := IH (mkNode dc fc) (mkNode dcy fcy) hsize hsc hscy hnec
            rw [show diffNode (mkNode dc fc) (mkNode dcy fcy) =
              Val.map (diff (vEntries (mkNode dc fc))
                (vEntries (mkNode dcy fcy))) from rfl] at hmain
            rw [List.isEmpty_iff.1 hre] at hmain
            rwa [updateWs_nil,
              show applyCmds (mkNode dcy fcy) [] = mkNode dcy fcy from rfl] at hmain
          obtain ⟨d2, heq, hnd2, hframe, hmem⟩ := ih d f hnd.2 horacleT
            (fun m hm => hagree m (by simp [hm])) hndd
          refine ⟨d2, heq, hnd2, ?_, ?_⟩
          · intro m hm
            simp only [List.map_cons, List.mem_cons, not_or] at hm
            exact hframe m hm.2
          · intro q hq
            rcases List.mem_cons.1 hq with hq | hq
            · rw [hq]
              refine ⟨mkNode dcy fcy, ?_, hobs⟩
              rw [hframe n hnotT, hagree n (by simp), hny]
            · exact hmem q hq
        · rw [if_neg hre]
          have hre2 : (diff (vEntries (mkNode dc fc))
              (vEntries (mkNode dcy fcy))).isEmpty = false := by
            rwa [Bool.not_eq_true] at hre
          simp only [wsDirs]
          have h1r : ¬truthy (diffNode (mkNode dc fc) (mkNode dcy fcy)) = false := by
            simp [diffNode, truthy, hre2]
          have h2r : diffNode (mkNode dc fc) (mkNode dcy fcy) ≠ Val.str "-" := by
            simp [diffNode]
          rw [if_neg h1r, if_neg h2r]
          rw [show ([] : List String) ++ [n] = [n] from rfl]
          rw [updateWs_shift hlook (diffNode (mkNode dc fc) (mkNode dcy fcy)) []]
          rw [applyCmds_append]
          have hpres : alookup n d = some (mkNode dcy fcy) := by
            rw [hagree n (by simp), hny]
          have hpaths : ∀ cmd ∈ updateWs (mkNode dc fc) []
              (diffNode (mkNode dc fc) (mkNode dcy fcy)), cmdPath cmd ≠ [] := by
            intro cmd hcmd
            obtain ⟨q, hq, hpath⟩ := updateWs_paths
              (diffNode (mkNode dc fc) (mkNode dcy fcy)) (mkNode dc fc)
              [] cmd hcmd
            rw [hpath]
            simpa using hq
          rw [applyCmds_shift_present
            (updateWs (mkNode dc fc) [] (diffNode (mkNode dc fc) (mkNode dcy fcy)))
            d f (mkNode dcy fcy) n hpres hpaths]
          set z := applyCmds (mkNode dcy fcy)
            (updateWs (mkNode dc fc) [] (diffNode (mkNode dc fc) (mkNode dcy fcy)))
            with hzdef
          have hz : obsEq z (mkNode dc fc) :=
            IH (mkNode dc fc) (mkNode dcy fcy) hsize hsc hscy hnec
          have hagreeT : ∀ m, m ∈ T.map Prod.fst →
              alookup m (aset n z d) = alookup m dy := by
            intro m hm
            have hmn : m ≠ n := fun he => hnotT (he ▸ hm)
            rw [alookup_aset_ne hmn]
            exact hagree m (by simp [hm])
          obtain ⟨d2, heq, hnd2, hframe, hmem⟩ := ih (aset n z d) f
            hnd.2 horacleT hagreeT (nodupKeys_aset hndd)
          refine ⟨d2, heq, hnd2, ?_, ?_⟩
          · intro m hm
            simp only [List.map_cons, List.mem_cons, not_or] at hm
            rw [hframe m hm.2, alookup_aset_ne hm.1]
          · intro q hq
            rcases List.mem_cons.1 hq with hq | hq
            · rw [hq]
              refine ⟨z, ?_, hz⟩
              rw [hframe n hnotT, alookup_aset_self]
            · exact hmem q hq

/-- Observational equality follows from pointwise agreement of the two
top-level maps (files equal, dir children pairwise observationally
equal). -/
theorem obs_of_node {a b : Val}
    (hf : ∀ n, alookup n (getFiles a) = alookup n (getFiles b))
    (hd : ∀ n, (alookup n (getDirs a) = none ∧ alookup n (getDirs b) = none) ∨
      ∃ z c, alookup n (getDirs a) = some z ∧ alookup n (getDirs b) = some c ∧
        obsEq z c) :
    obsEq a b := by
  intro p
  match p with
  | [] => exact ⟨rfl, rfl⟩
  | [n] =>
    constructor
    · simp only [fileContent]
      rw [hf n]
    · simp only [subNode]
      rcases hd n with ⟨h1, h2⟩ | ⟨z, c, h1, h2, _⟩
      · rw [h1, h2]
      · rw [h1, h2]
        rfl
  | n :: m :: q =>
    constructor
    · simp only [fileContent]
      rcases hd n with ⟨h1, h2⟩ | ⟨z, c, h1, h2, hzc⟩
      · rw [h1, h2]
      · rw [h1, h2]
        exact (hzc (m :: q)).1
    · simp only [subNode]
      rcases hd n with ⟨h1, h2⟩ | ⟨z, c, h1, h2, hzc⟩
      · rw [h1, h2]
      · rw [h1, h2]
        exact (hzc (m :: q)).2

/-- Synchronisation is exact, by strong induction on the size of the local
tree: applying the walked diff commands to the remote tree reproduces the
local tree up to observation, provided every local directory subtree
holds a file. -/
theorem wsMain_aux : ∀ (N : Nat) (x y : Val), sizeOf x ≤ N →
    isSnap x = true → isSnap y = true → noEmptyDirs x = true →
    obsEq (applyCmds y (updateWs x [] (diffNode x y))) x := by
  intro N
  induction N with
  | zero =>
    intro x y hxN
    have := one_le_sizeOf_val x
    omega
  | succ N ihN =>
    intro x y hxN hsx hsy hnex
    obtain ⟨dx, fx, rfl⟩ := snap_shape hsx
    obtain ⟨dy, fy, rfl⟩ := snap_shape hsy
    rw [isSnap_mkNode] at hsx hsy
    simp only [Bool.and_eq_true] at hsx hsy
    rw [noEmptyDirs_mkNode] at hnex
    have hnd := node_diff dx fx dy fy
    rw [updateWs_def (mkNode dx fx) [] (diffNode (mkNode dx fx) (mkNode dy fy)),
      hnd.1, hnd.2]
    rw [show diff dx dy = diffAux dx dy ++ removedKeys dx dy from rfl]
    rw [show diff fx fy = diffAux fx fy ++ removedKeys fx fy from rfl]
    rw [wsDirs_append, wsFiles_append]
    rw [applyCmds_append, applyCmds_append, applyCmds_append]
    have hIH : ∀ (c y2 : Val), sizeOf c < sizeOf (mkNode dx fx) →
        isSnap c = true → isSnap y2 = true → noEmptyDirs c = true →
        obsEq (applyCmds y2 (updateWs c [] (diffNode c y2))) c := by
      intro c y2 hlt hc hy2 hnc
      exact ihN c y2 (by omega) hc hy2 hnc
    have horA : ∀ p ∈ dx, alookup p.1 (getDirs (mkNode dx fx)) = some p.2 ∧
        isSnap p.2 = true ∧ hasFileIn p.2 = true ∧ noEmptyDirs p.2 = true ∧
        sizeOf p.2 < sizeOf (mkNode dx fx) := by
      intro q hq
      refine ⟨?_, snapD_mem hsx.1.2 hq, (goodD_mem hnex hq).1,
        (goodD_mem hnex hq).2, ?_⟩
      · rw [getDirs_mkNode]
        exact alookup_of_mem_nodup hsx.1.1.1 (by simpa using hq)
      · have h1 := mem_sizeOf_val (show (q.1, q.2) ∈ dx by simpa using hq)
        have h2 := sizeOf_lt_mkNode_dirs dx fx
        omega
    obtain ⟨d1, heq1, hnd1, hframe1, hmem1⟩ := phase1a (mkNode dx fx)
      (sizeOf (mkNode dx fx)) hIH dy (fun q hq => snapD_mem hsy.1.2 hq)
      dx dy fy hsx.1.1.1 horA (fun m _ => rfl) hsy.1.1.1
    rw [heq1]
    obtain ⟨d2, heq2, hnd2, hchar2⟩ := dirs_remove_fold (mkNode dx fx)
      (removedKeys dx dy) d1 fy (fun q hq => removedKeys_values hq) hnd1
    rw [heq2]
    have horF : ∀ p ∈ fx, alookup p.1 (getFiles (mkNode dx fx)) = some p.2 ∧
        ∃ h, p.2 = Val.str h ∧ h ≠ "-" ∧ h ≠ "" := by
      intro q hq
      refine ⟨?_, snapFiles_mem hsx.2 hq⟩
      rw [getFiles_mkNode]
      exact alookup_of_mem_nodup hsx.1.1.2 (by simpa using hq)
    obtain ⟨f1, heq3, hnf1, hframe3, hmem3⟩ := phase2a (mkNode dx fx)
      fx fy d2 fy hsx.1.1.2 horF (fun m _ => rfl) hsy.1.1.2
    rw [heq3]
    obtain ⟨f2, heq4, hnf2, hchar4⟩ := files_remove_fold (mkNode dx fx)
      (removedKeys fx fy) d2 f1 (fun q hq => removedKeys_values hq) hnf1
    rw [heq4]
    apply obs_of_node
    · intro m
      rw [getFiles_mkNode, getFiles_mkNode]
      rw [hchar4 m]
      by_cases hmfx : m ∈ fx.map Prod.fst
      · have hnotR : m ∉ (removedKeys fx fy).map Prod.fst := by
          rw [removedKeys_keys]
          rintro ⟨_, habs⟩
          rw [alookup_eq_none_iff] at habs
          exact habs hmfx
        rw [if_neg hnotR]
        obtain ⟨q, hq, rfl⟩ := List.mem_map.1 hmfx
        rw [hmem3 q hq, alookup_of_mem_nodup hsx.1.1.2 (by simpa using hq)]
      · have hfxnone : alookup m fx = none := alookup_eq_none_iff.2 hmfx
        by_cases hmfy : m ∈ fy.map Prod.fst
        · rw [if_pos (removedKeys_keys.2 ⟨hmfy, hfxnone⟩), hfxnone]
        · have hnotR : m ∉ (removedKeys fx fy).map Prod.fst := by
            rw [removedKeys_keys]
            rintro ⟨h1, _⟩
            exact hmfy h1
          rw [if_neg hnotR, hframe3 m hmfx, alookup_eq_none_iff.2 hmfy, hfxnone]
    · intro m
      rw [getDirs_mkNode, getDirs_mkNode]
      by_cases hmdx : m ∈ dx.map Prod.fst
      · right
        obtain ⟨q, hq, rfl⟩ := List.mem_map.1 hmdx
        obtain ⟨z, hzl, hzo⟩ := hmem1 q hq
        refine ⟨z, q.2, ?_, ?_, hzo⟩
        · rw [hchar2 q.1]
          have hnotR : q.1 ∉ (removedKeys dx dy).map Prod.fst := by
            rw [removedKeys_keys]
            rintro ⟨_, habs⟩
            rw [alookup_eq_none_iff] at habs
            exact habs (List.mem_map.2 ⟨q, hq, rfl⟩)
          rw [if_neg hnotR]
          exact hzl
        · exact alookup_of_mem_nodup hsx.1.1.1 (by simpa using hq)
      · left
        have hdxnone : alookup m dx = none := alookup_eq_none_iff.2 hmdx
        refine ⟨?_, hdxnone⟩
        rw [hchar2 m]
        by_cases hmdy : m ∈ dy.map Prod.fst
        · rw [if_pos (removedKeys_keys.2 ⟨hmdy, hdxnone⟩)]
        · have hnotR : m ∉ (removedKeys dx dy).map Prod.fst := by
            rw [removedKeys_keys]
            rintro ⟨h1, _⟩
            exact hmdy h1
          rw [if_neg hnotR, hframe1 m hmdx, alookup_eq_none_iff.2 hmdy]

/-- Lookup of a member key succeeds. -/
theorem alookup_isSome_of_mem {l : List (String × Val)} {p : String × Val}
    (hp : p ∈ l) : (alookup p.1 l).isNone = false := by
  cases hl : alookup p.1 l with
  | some v => rfl
  | none =>
    rw [alookup_eq_none_iff] at hl
    exact absurd (List.mem_map.2 ⟨p, hp, rfl⟩) hl

/-- The removal pass of a dict against itself is empty. -/
theorem removedKeys_self : ∀ (l : List (String × Val)), removedKeys l l = [] := by
  intro l
  have h : ∀ (b : List (String × Val)), (∀ p ∈ b, (alookup p.1 l).isNone = false) →
      removedKeys l b = [] := by
    intro b
    induction b with
    | nil => intro _; rfl
    | cons q rest ih =>
      intro hb
      have hq := hb q (by simp)
      simp only [removedKeys, List.filterMap_cons, hq]
      simp only [Bool.false_eq_true, if_false]
      exact ih (fun p hp => hb p (by simp [hp]))
  exact h l (fun p hp => alookup_isSome_of_mem hp)

/-- First diff loop of a dict of snapshot payloads (or string payloads)
against a dict that returns the very same payloads: empty. -/
theorem diffAux_self_of (B : Nat)
    (IH : ∀ c : Val, sizeOf c < B → isSnap c = true →
      diff (vEntries c) (vEntries c) = []) :
    ∀ (T D : List (String × Val)),
      (∀ p ∈ T, alookup p.1 D = some p.2 ∧
        ((∃ s, p.2 = Val.str s) ∨ (isSnap p.2 = true ∧ sizeOf p.2 < B))) →
      diffAux T D = [] := by
  intro T
  induction T with
  | nil => intro D _; simp [diffAux]
  | cons p T2 ih =>
    intro D h
    cases p with
    | mk n v =>
      obtain ⟨hlook, hcase⟩ := h (n, v) (by simp)
      rcases hcase with ⟨s, rfl⟩ | ⟨hsnap, hsize⟩
      · have hstep : diffAux ((n, Val.str s) :: T2) D = diffAux T2 D := by
          simp only [diffAux, hlook]
          rw [if_neg]
          rintro ⟨hne, _⟩
          exact hne rfl
        rw [hstep]
        exact ih D (fun q hq => h q (by simp [hq]))
      · obtain ⟨dv, fv, rfl⟩ := snap_shape hsnap
        have hst : diffAux ((n, mkNode dv fv) :: T2) D =
            if (diff (vEntries (mkNode dv fv)) (vEntries (mkNode dv fv))).isEmpty
            then diffAux T2 D
            else (n, diffNode (mkNode dv fv) (mkNode dv fv)) :: diffAux T2 D :=
          diffAux_cons_mapmap hlook
        rw [hst, IH (mkNode dv fv) hsize hsnap]
        simp only [List.isEmpty_nil, if_true]
        exact ih D (fun q hq => h q (by simp [hq]))

/-- Auxiliary strong induction for the reflexivity of `diff` on snapshot
trees. -/
theorem diff_self_aux : ∀ (N : Nat) (x : Val), sizeOf x ≤ N → isSnap x = true →
    diff (vEntries x) (vEntries x) = [] := by
  intro N
  induction N with
  | zero =>
    intro x h
    have := one_le_sizeOf_val x
    omega
  | succ N ihN =>
    intro x hxN hs
    obtain ⟨dx, fx, rfl⟩ := snap_shape hs
    rw [isSnap_mkNode] at hs
    simp only [Bool.and_eq_true] at hs
    have hIH : ∀ c : Val, sizeOf c < sizeOf (mkNode dx fx) → isSnap c = true →
        diff (vEntries c) (vEntries c) = [] := by
      intro c hlt hc
      exact ihN c (by omega) hc
    have hdd : diff dx dx = [] := by
      rw [diff, removedKeys_self, List.append_nil]
      apply diffAux_self_of (sizeOf (mkNode dx fx)) hIH dx dx
      intro q hq
      refine ⟨alookup_of_mem_nodup hs.1.1.1 (by simpa using hq),
        Or.inr ⟨snapD_mem hs.1.2 hq, ?_⟩⟩
      have h1 := mem_sizeOf_val (show (q.1, q.2) ∈ dx by simpa using hq)
      have h2 := sizeOf_lt_mkNode_dirs dx fx
      omega
    have hff : diff fx fx = [] := by
      rw [diff, removedKeys_self, List.append_nil]
      apply diffAux_self_of (sizeOf (mkNode dx fx)) hIH fx fx
      intro q hq
      refine ⟨alookup_of_mem_nodup hs.1.1.2 (by simpa using hq), Or.inl ?_⟩
      obtain ⟨h, hv, _, _⟩ := snapFiles_mem hs.2 hq
      exact ⟨h, hv⟩
    rw [vEntries_mkNode]
    rw [show ([("dirs", Val.map dx), ("files", Val.map fx)]) =
      vEntries (mkNode dx fx) from rfl]
    rw [show diff (vEntries (mkNode dx fx)) (vEntries (mkNode dx fx)) =
      diff [("dirs", Val.map dx), ("files", Val.map fx)]
        [("dirs", Val.map dx), ("files", Val.map fx)] from rfl]
    rw [diff_node_entries dx fx dx fx, hdd, hff]
    simp

/-- C1: for snapshot trees X and Y, `diff(X, X) = {}` and applying it to
any workspace changes nothing; and applying `diff(X, Y)` as the command
sequence walked by `client.update_workspace` to a workspace whose state
is Y yields a workspace observationally equal to X (same directories,
same file hashes), under the proviso that every directory subtree of X
holds at least one file — the protocol materialises directories only as a
side effect of file writes, so the unrestricted claim fails on empty
directories (see the counterexample). -/
theorem C1_diff_apply (x y : Val) (hx : isSnap x = true) (hy : isSnap y = true)
    (hne : noEmptyDirs x = true) :
    diff (vEntries x) (vEntries x) = [] ∧
    applyCmds y (updateWs x [] (diffNode x x)) = y ∧
    obsEq (applyCmds y (updateWs x [] (diffNode x y))) x := by
  refine ⟨diff_self_aux (sizeOf x) x le_rfl hx, ?_,
    wsMain_aux (sizeOf x) x y le_rfl hx hy hne⟩
  rw [show diffNode x x = Val.map (diff (vEntries x) (vEntries x)) from rfl,
    diff_self_aux (sizeOf x) x le_rfl hx, updateWs_nil]
  rfl

/-- C1 counterexample: X holds one empty directory `d`, Y is empty.  The
diff carries `d`'s node verbatim, `update_workspace` recurses into it
(the payload `{"dirs": {}, "files": {}}` is truthy, so CREATE_DIR is not
emitted) and finds nothing to send: no command at all is issued, the
workspace stays empty, and the final state lacks the directory `d` that X
has. -/
theorem C1_counterexample :
    isSnap (mkNode [("d", mkNode [] [])] []) = true ∧
    isSnap (mkNode [] []) = true ∧
    noEmptyDirs (mkNode [] []) = true ∧
    updateWs (mkNode [("d", mkNode [] [])] []) []
      (diffNode (mkNode [("d", mkNode [] [])] []) (mkNode [] [])) = [] ∧
    subNode (mkNode [("d", mkNode [] [])] []) ["d"] = some (mkNode [] []) ∧
    ¬ obsEq (applyCmds (mkNode [] [])
        (updateWs (mkNode [("d", mkNode [] [])] []) []
          (diffNode (mkNode [("d", mkNode [] [])] []) (mkNode [] []))))
      (mkNode [("d", mkNode [] [])] []) := by
  have hd := node_diff [("d", mkNode [] [])] [] [] []
  have hup : updateWs (mkNode [("d", mkNode [] [])] []) []
      (diffNode (mkNode [("d", mkNode [] [])] []) (mkNode [] [])) = [] := by
    rw [updateWs_def, hd.1, hd.2, diff_nil_right]
    rw [diff_nil_right ([] : List (String × Val))]
    simp only [wsDirs, wsFiles]
    rw [if_neg (by rw [truthy_mkNode]; simp), if_neg (mkNode_ne_str [] [] "-")]
    rw [show ([] : List String) ++ ["d"] = ["d"] from rfl]
    rw [updateWs_def, getDirs_mkNode, getFiles_mkNode]
    simp [wsDirs, wsFiles]
  refine ⟨by decide, by decide, by decide, hup, by decide, ?_⟩
  intro hobs
  have h2 := (hobs ["d"]).2
  rw [hup] at h2
  rw [show applyCmds (mkNode [] []) [] = mkNode [] [] from rfl] at h2
  revert h2
  decide

/-- C1 witness: a concrete pair of snapshots (every directory of X holds a
file) satisfying the hypotheses of the corrected claim. -/
theorem C1_witness :
    noEmptyDirs (mkNode [("d", mkNode [] [("g", Val.str "b2f")])]
      [("a", Val.str "a1c")]) = true ∧
    (diff (vEntries (mkNode [("d", mkNode [] [("g", Val.str "b2f")])]
        [("a", Val.str "a1c")]))
      (vEntries (mkNode [("d", mkNode [] [("g", Val.str "b2f")])]
        [("a", Val.str "a1c")])) = [] ∧
    applyCmds (mkNode [("e", mkNode [] [("f", Val.str "d77")])]
        [("a", Val.str "a00")])
      (updateWs (mkNode [("d", mkNode [] [("g", Val.str "b2f")])]
          [("a", Val.str "a1c")]) []
        (diffNode (mkNode [("d", mkNode [] [("g", Val.str "b2f")])]
            [("a", Val.str "a1c")])
          (mkNode [("d", mkNode [] [("g", Val.str "b2f")])]
            [("a", Val.str "a1c")]))) =
      mkNode [("e", mkNode [] [("f", Val.str "d77")])] [("a", Val.str "a00")] ∧
    obsEq (applyCmds (mkNode [("e", mkNode [] [("f", Val.str "d77")])]
        [("a", Val.str "a00")])
      (updateWs (mkNode [("d", mkNode [] [("g", Val.str "b2f")])]
          [("a", Val.str "a1c")]) []
        (diffNode (mkNode [("d", mkNode [] [("g", Val.str "b2f")])]
            [("a", Val.str "a1c")])
          (mkNode [("e", mkNode [] [("f", Val.str "d77")])]
            [("a", Val.str "a00")]))))
      (mkNode [("d", mkNode [] [("g", Val.str "b2f")])]
        [("a", Val.str "a1c")])) :=
  ⟨by decide,
   C1_diff_apply
     (mkNode [("d", mkNode [] [("g", Val.str "b2f")])] [("a", Val.str "a1c")])
     (mkNode [("e", mkNode [] [("f", Val.str "d77")])] [("a", Val.str "a00")])
     (by decide) (by decide) (by decide)⟩

end WSTerm
